import Mathlib

/-!
Verification of the fuzzyfs case-resolution code (src/fuzzyfs.c).

The C code is embedded shallowly at the byte level:

* a C string buffer is a `List Char` (bytes); the terminating NUL byte of
  the `strdup`-ed working buffer is represented explicitly, and the
  C-string view of a buffer (what `lstat`, `opendir`, `strcasecmp` and the
  caller actually see through a `char*`) is `cstr`, the bytes up to the
  first NUL;
* `strtok_r(p, "/", &saveptr)` is `strtokR`: it skips leading delimiter
  bytes, finds the token, writes a NUL over the terminating delimiter of
  the token and advances the save pointer;
* the resolver loop of `fix_path_case` is `fixLoopF`, with an explicit
  fuel argument (the top-level call supplies more fuel than the loop can
  consume, `buf.length + 1`); it also counts `opendir` attempts (`scans`)
  and tracks the balance of heap allocations made by the call that are
  not yet freed (`live`), with an increment at each `strdup`/`malloc`
  site of the C code and a decrement at each `free` site;
* the operating environment (lstat, opendir/readdir enumeration order) is
  an oracle structure `Posix`; a concrete directory tree `Entry` gives
  one instantiation, `entryPosix`, in which path strings are resolved the
  way the kernel resolves them (splitting on the separator and ignoring
  empty and dot components);
* the FUSE dispatchers (`fuzzyfs_getattr`, `fuzzyfs_readdir`,
  `fuzzyfs_open`, `fuzzyfs_read`) are modelled over an errno oracle
  `World`; a failed C `assert` is the distinguished outcome
  `assertFail`, since the process aborts there instead of returning.
-/

namespace FuzzyFS

/-- The NUL byte that terminates C strings. -/
def NUL : Char := Char.ofNat 0

/-- A byte string (we only ever deal with single-byte characters). -/
abbrev Bytes := List Char

/-- The character of the constant `DOT = "."` in fuzzyfs.c. -/
def DOTC : Char := '.'

/-- C-string view of a buffer: the bytes before the first NUL.  This is
what any function receiving a `char*` into the buffer actually reads. -/
def cstr (b : Bytes) : Bytes := b.takeWhile (fun c => c ≠ NUL)

/-- ASCII lower casing, as done by `tolower` in the C locale: this is the
byte-wise, locale-independent folding used by `strcasecmp`. -/
def lowerAscii (c : Char) : Char :=
  if 'A' ≤ c ∧ c ≤ 'Z' then Char.ofNat (c.toNat + 32) else c

/-- Equality test of `strcasecmp(a, b) == 0`: the two byte strings agree
after ASCII case folding. -/
def caseEq (a b : Bytes) : Bool := a.map lowerAscii = b.map lowerAscii

/-- The readdir scan loop of `fix_path_case` (lines 142..155 of
fuzzyfs.c): walk the enumerated names in order and return the first one
that matches `tok` case-insensitively. -/
def findCaseMatch (es : List Bytes) (tok : Bytes) : Option Bytes :=
  match es with
  | [] => none
  | e :: es => if caseEq e tok then some e else findCaseMatch es tok

/-- Number of leading `/` bytes (the delimiter-skipping phase of
`strtok_r`; it stops at any non-delimiter byte, including NUL). -/
def slashRun : Bytes → Nat
  | [] => 0
  | c :: cs => if c = '/' then slashRun cs + 1 else 0

/-- Length of the token starting at the head: the bytes before the next
`/` or NUL. -/
def tokLen : Bytes → Nat
  | [] => 0
  | c :: cs => if c = '/' ∨ c = NUL then 0 else tokLen cs + 1

/-- Index where the next token would start: the save pointer plus the
delimiter run in front of it. -/
def tokStart (buf : Bytes) (i : Nat) : Nat := i + slashRun (buf.drop i)

/-- The buffer bytes from the start of the next token on. -/
def restAt (buf : Bytes) (i : Nat) : Bytes := (buf.drop i).drop (slashRun (buf.drop i))

/-- One call `strtok_r(NULL, "/", &saveptr)` on buffer `buf` with the
save pointer at index `i`.  Returns `none` at the end of the string, or
`some (j, n, buf1, i1)`: the token starts at index `j`, has `n` bytes,
`buf1` is the buffer with a NUL written over the byte terminating the
token, and `i1` is the new save pointer. -/
def strtokR (buf : Bytes) (i : Nat) : Option (Nat × Nat × Bytes × Nat) :=
  match (restAt buf i).head? with
  | none => none
  | some c =>
    if c = NUL then none
    else
      some (tokStart buf i, tokLen (restAt buf i),
        buf.set (tokStart buf i + tokLen (restAt buf i)) NUL,
        tokStart buf i + tokLen (restAt buf i) + 1)

/-- Write the bytes of `src` into `buf` starting at index `i`
(out-of-range writes are dropped, as `List.set` ignores them; in the
verified runs every write is in range). -/
def setRange (buf : Bytes) (i : Nat) : Bytes → Bytes
  | [] => buf
  | c :: cs => setRange (buf.set i c) (i + 1) cs

/-- The operating-system oracle used by the resolver: `lstatOk p` tells
whether `lstat` succeeds on the C string `p`, and `opendirD p` gives the
`readdir` enumeration (names, in on-disk order) of directory `p`, or
`none` when `opendir` fails. -/
structure Posix where
  lstatOk : Bytes → Bool
  opendirD : Bytes → Option (List Bytes)

/-- Result of the resolver loop: the final working buffer (`none` when
the C code returns NULL), the number of `opendir` attempts, and the
number of allocations made by the call that are not yet freed. -/
structure CaseRes where
  res : Option Bytes
  scans : Nat
  live : Nat
deriving DecidableEq

/-- The `while (token != NULL)` loop of `fix_path_case` (lines 88..175 of
fuzzyfs.c), fuel-indexed.  Each iteration: restore the delimiter before
the token (when not on the first chunk), `lstat` the prefix as a C
string, and on failure build the parent string, `opendir` it, scan for a
case-insensitive match and `strcpy` it over the token in place. -/
def fixLoopF (px : Posix) : Nat → Bytes → Nat → Nat → Nat → CaseRes
  | 0, _, _, scans, live => ⟨none, scans, live⟩
  | fuel + 1, buf, ptr, scans, live =>
    match strtokR buf ptr with
    | none => ⟨some buf, scans, live⟩
    | some (j, n, buf1, ptr') =>
      let buf2 := if j ≠ 0 then buf1.set (j - 1) '/' else buf1
      if px.lstatOk (cstr buf2) then
        fixLoopF px fuel buf2 ptr' scans live
      else
        let parent := if j ≠ 0 then cstr (buf2.take j) else [DOTC]
        match px.opendirD parent with
        | none => ⟨none, scans + 1, live + 1 - 1 - 1⟩
        | some es =>
          match findCaseMatch es ((buf2.drop j).take n) with
          | none => ⟨none, scans + 1, live + 1 - 1 - 1⟩
          | some name =>
            fixLoopF px fuel (setRange buf2 j (name ++ [NUL])) ptr' (scans + 1) (live + 1 - 1)

/-- What the caller of `fix_path_case` observes: the returned C string
(`none` for NULL), the number of directory scans, and the allocation
balance of the call. -/
structure CaseOut where
  ret : Option Bytes
  scans : Nat
  live : Nat
deriving DecidableEq

/-- `fix_path_case(path)` of fuzzyfs.c: `strdup` the input (one
allocation, and a C string stops at the first NUL), run the token loop,
and hand the resulting pointer to the caller, who reads it as a C
string. -/
def fix_path_case (px : Posix) (path : Bytes) : CaseOut :=
  let buf := path.takeWhile (fun c => c ≠ NUL) ++ [NUL]
  let r := fixLoopF px (buf.length + 1) buf 0 0 1
  ⟨r.res.map cstr, r.scans, r.live⟩

/-- `fix_path(path)` of fuzzyfs.c (lines 44..64): map the root path to
the DOT token, strip exactly one leading separator otherwise, leave
everything else untouched.  The check of the C code is on the byte after
the separator being NUL, which for a buffer is the head of the rest
being absent or NUL. -/
def fix_path (p : Bytes) : Bytes :=
  match p with
  | '/' :: rest => if rest.head? = none ∨ rest.head? = some NUL then [DOTC] else rest
  | _ => p

/-- A well-formed path token: nonempty, with no separator and no NUL
byte.  Tokens produced by `strtok_r` and names stored in a real
directory have this shape. -/
def cleanTok (t : Bytes) : Prop := t ≠ [] ∧ '/' ∉ t ∧ NUL ∉ t

instance (t : Bytes) : Decidable (cleanTok t) := by
  unfold cleanTok; infer_instance

/-- Join tokens with single separator bytes (the inverse of splitting a
canonical path). -/
def joinB : List Bytes → Bytes
  | [] => []
  | [t] => t
  | t :: t' :: ts => t ++ '/' :: joinB (t' :: ts)

/-- The oracle enumerates only well-formed names, as a real directory
does. -/
def CleanNames (px : Posix) : Prop :=
  ∀ p es n, px.opendirD p = some es → n ∈ es → cleanTok n

/-- The oracle is a consistent snapshot: a name enumerated by reading
directory `p` can be stat-ed under `p`.  The parent strings built by
`fix_path_case` either are the DOT token (first component) or end in a
separator, so the child path is the plain concatenation. -/
def Consistent (px : Posix) : Prop :=
  ∀ p es n, px.opendirD p = some es → n ∈ es →
    px.lstatOk (if p = [DOTC] then n else p ++ n) = true

/-- Every nonempty prefix of the token list `ds`, printed after the
leading separator run `SL`, passes `lstat`. -/
def Ver (px : Posix) (SL : Bytes) (ds : List Bytes) : Prop :=
  ∀ i, 1 ≤ i → i ≤ ds.length → px.lstatOk (SL ++ joinB (ds.take i)) = true

/-- The processed part of the working buffer: nothing before the first
iteration, afterwards the corrected tokens followed by the NUL that
`strtok_r` wrote over the last separator handed out. -/
def pfxPart (ds : List Bytes) : Bytes := if ds = [] then [] else joinB ds ++ [NUL]

/-- Shape of the working buffer at the head of a loop iteration. -/
def stateBuf (SL : Bytes) (ds : List Bytes) (R : Bytes) : Bytes := SL ++ pfxPart ds ++ R

/-- The save pointer at the head of a loop iteration. -/
def ptrOf (SL : Bytes) (ds : List Bytes) : Nat :=
  if ds = [] then 0 else SL.length + (joinB ds).length + 1

/-- The parent string `fix_path_case` builds for the token following
`SL` and `ds` (the C code copies the first `token - p` bytes, so a
non-initial parent ends in a separator byte). -/
def parentSL (SL : Bytes) (ds : List Bytes) : Bytes :=
  if ds = [] then (if SL = [] then [DOTC] else SL) else SL ++ joinB ds ++ ['/']

section Helpers

/-- Case-insensitively equal strings have the same byte length, because
folding is applied byte by byte. -/
theorem caseEq_length {a b : Bytes} (h : caseEq a b = true) : a.length = b.length := by
  have h' : a.map lowerAscii = b.map lowerAscii := by
    simpa [caseEq] using h
  simpa using congrArg List.length h'

/-- The scan returns an element of the enumeration. -/
theorem findCaseMatch_mem {es : List Bytes} {tok nm : Bytes}
    (h : findCaseMatch es tok = some nm) : nm ∈ es := by
  induction es with
  | nil => simp [findCaseMatch] at h
  | cons e es ih =>
    by_cases hc : caseEq e tok = true
    · simp [findCaseMatch, hc] at h
      simp [h]
    · simp [findCaseMatch, hc] at h
      exact List.mem_cons_of_mem _ (ih h)

/-- First-match characterisation of the scan: the returned name matches,
sits at some index of the enumeration, and every earlier entry fails the
case-insensitive comparison. -/
theorem findCaseMatch_spec {es : List Bytes} {tok nm : Bytes}
    (h : findCaseMatch es tok = some nm) :
    caseEq nm tok = true ∧
      ∃ i, i < es.length ∧ es[i]? = some nm ∧ ∀ x ∈ es.take i, caseEq x tok = false := by
  induction es with
  | nil => simp [findCaseMatch] at h
  | cons e es ih =>
    by_cases hc : caseEq e tok = true
    · simp [findCaseMatch, hc] at h
      subst h
      exact ⟨hc, 0, by simp, by simp, by simp⟩
    · simp [findCaseMatch, hc] at h
      obtain ⟨hm, i, hi, hg, hpre⟩ := ih h
      refine ⟨hm, i + 1, by simpa using hi, by simpa using hg, ?_⟩
      intro x hx
      rcases List.mem_cons.mp (by simpa using hx) with rfl | hx'
      · simpa using hc
      · exact hpre x hx'

/-- Setting an index to the value it already holds is a no-op. -/
theorem set_of_getElem? {α : Type} (l : List α) (i : Nat) (x : α)
    (h : l[i]? = some x) : l.set i x = l := by
  induction l generalizing i with
  | nil => simp at h
  | cons a l ih =>
    cases i with
    | zero => simp at h; simp [h]
    | succ i => simpa using ih i (by simpa using h)

theorem length_setRange (s : Bytes) : ∀ (buf : Bytes) (i : Nat),
    (setRange buf i s).length = buf.length := by
  induction s with
  | nil => intro buf i; simp [setRange]
  | cons c cs ih => intro buf i; simp [setRange, ih]

theorem setRange_cons_succ (a : Char) (r s : Bytes) (i : Nat) :
    setRange (a :: r) (i + 1) s = a :: setRange r i s := by
  induction s generalizing a r i with
  | nil => simp [setRange]
  | cons c cs ih => simp [setRange, ih]

/-- Writing `s` at the start of a buffer long enough replaces the first
bytes of the buffer. -/
theorem setRange_zero_front (s : Bytes) : ∀ (r : Bytes), s.length ≤ r.length →
    setRange r 0 s = s ++ r.drop s.length := by
  induction s with
  | nil => intro r _; simp [setRange]
  | cons c cs ih =>
    intro r hr
    cases r with
    | nil => simp at hr
    | cons a r' =>
      simp only [setRange, List.set]
      rw [setRange_cons_succ]
      simp [ih r' (by simpa using hr)]

/-- Writing at an offset past a prefix leaves the prefix alone. -/
theorem setRange_append (A r s : Bytes) :
    setRange (A ++ r) A.length s = A ++ setRange r 0 s := by
  induction A with
  | nil => simp
  | cons a A ih => simpa [setRange_cons_succ] using ih

/-- Bytes strictly before the write window of `setRange` are unchanged. -/
theorem take_setRange (s : Bytes) : ∀ (b : Bytes) (i k : Nat), k ≤ i →
    (setRange b i s).take k = b.take k := by
  induction s with
  | nil => intro b i k _; simp [setRange]
  | cons c cs ih =>
    intro b i k hk
    simp only [setRange]
    rw [ih _ (i + 1) k (by omega)]
    induction b generalizing i k with
    | nil => simp
    | cons a b ihb =>
      cases i with
      | zero =>
        interval_cases k
        simp
      | succ i =>
        cases k with
        | zero => simp
        | succ k => simp [ihb i k (by omega)]

/-- Bytes at or past the end of the write window of `setRange` are
unchanged. -/
theorem drop_setRange (s : Bytes) : ∀ (b : Bytes) (i k : Nat), i + s.length ≤ k →
    (setRange b i s).drop k = b.drop k := by
  induction s with
  | nil => intro b i k _; simp [setRange]
  | cons c cs ih =>
    intro b i k hk
    simp only [setRange]
    rw [ih _ (i + 1) k (by simp at hk ⊢; omega)]
    induction b generalizing i k with
    | nil => simp
    | cons a b ihb =>
      cases i with
      | zero =>
        cases k with
        | zero => simp at hk
        | succ k => simp
      | succ i =>
        cases k with
        | zero => simp at hk
        | succ k => simp [ihb i k (by omega)]

/-- A prefix strictly below the write position of `List.set` is
unchanged. -/
theorem take_set_of_le {α : Type} (x : α) : ∀ (l : List α) (i k : Nat), k ≤ i →
    (l.set i x).take k = l.take k := by
  intro l
  induction l with
  | nil => intro i k _; simp
  | cons a l ih =>
    intro i k hk
    cases i with
    | zero =>
      interval_cases k
      simp
    | succ i =>
      cases k with
      | zero => simp
      | succ k => simp [ih i k (by omega)]

/-- Reading below the write position of `List.set` is unchanged. -/
theorem getElem?_set_of_ne {α : Type} (x : α) : ∀ (l : List α) (i q : Nat), q ≠ i →
    (l.set i x)[q]? = l[q]? := by
  intro l
  induction l with
  | nil => intro i q _; simp
  | cons a l ih =>
    intro i q hq
    cases i with
    | zero =>
      cases q with
      | zero => omega
      | succ q => simp
    | succ i =>
      cases q with
      | zero => simp
      | succ q => simp [ih i q (by omega)]

/-- A NUL-free byte string is its own C-string view. -/
theorem cstr_of_no_nul {A : Bytes} (h : NUL ∉ A) : cstr A = A := by
  induction A with
  | nil => rfl
  | cons a A ih =>
    have ha : a ≠ NUL := by intro hx; exact h (by simp [hx])
    unfold cstr
    rw [List.takeWhile_cons_of_pos (by simpa using ha)]
    have hA := ih (fun hx => h (List.mem_cons_of_mem _ hx))
    unfold cstr at hA
    rw [hA]

/-- The C-string view stops at the first NUL after a NUL-free prefix. -/
theorem cstr_append_nul {A : Bytes} (r : Bytes) (h : NUL ∉ A) :
    cstr (A ++ NUL :: r) = A := by
  induction A with
  | nil =>
    unfold cstr
    rw [List.nil_append, List.takeWhile_cons_of_neg (by simp)]
  | cons a A ih =>
    have ha : a ≠ NUL := by intro hx; exact h (by simp [hx])
    unfold cstr
    rw [List.cons_append, List.takeWhile_cons_of_pos (by simpa using ha)]
    have hA := ih (fun hx => h (List.mem_cons_of_mem _ hx))
    unfold cstr at hA
    rw [hA]

/-- The C-string view is determined by the bytes before any known NUL. -/
theorem cstr_eq_cstr_take {l : Bytes} : ∀ (q : Nat), l[q]? = some NUL →
    cstr l = cstr (l.take q) := by
  induction l with
  | nil => intro q h; simp at h
  | cons a l ih =>
    intro q h
    cases q with
    | zero =>
      simp at h
      unfold cstr
      rw [List.take_zero, List.takeWhile_cons_of_neg (by simp [h]), List.takeWhile_nil]
    | succ q =>
      by_cases ha : a = NUL
      · unfold cstr
        rw [List.takeWhile_cons_of_neg (by simp [ha]), List.take_succ_cons,
          List.takeWhile_cons_of_neg (by simp [ha])]
      · unfold cstr
        rw [List.take_succ_cons, List.takeWhile_cons_of_pos (by simpa using ha),
          List.takeWhile_cons_of_pos (by simpa using ha)]
        have := ih q (by simpa using h)
        unfold cstr at this
        rw [this]

/-- Delimiter skipping walks through a pure separator run. -/
theorem slashRun_slashes_append {S : Bytes} (r : Bytes) (hS : ∀ c ∈ S, c = '/') :
    slashRun (S ++ r) = S.length + slashRun r := by
  induction S with
  | nil => simp
  | cons c S ih =>
    have hc : c = '/' := hS c (by simp)
    subst hc
    have ihh := ih (fun x hx => hS x (List.mem_cons_of_mem _ hx))
    rw [List.cons_append,
      show slashRun ('/' :: (S ++ r)) = slashRun (S ++ r) + 1 from by simp [slashRun],
      ihh, List.length_cons]
    omega

theorem slashRun_cons_of_ne {c : Char} (r : Bytes) (h : c ≠ '/') :
    slashRun (c :: r) = 0 := by
  simp [slashRun, h]

/-- The byte found after the delimiter run is not a delimiter. -/
theorem slashRun_head_ne {l : Bytes} {c : Char}
    (h : (l.drop (slashRun l)).head? = some c) : c ≠ '/' := by
  induction l with
  | nil => simp at h
  | cons a l ih =>
    by_cases ha : a = '/'
    · subst ha
      simp only [slashRun, if_pos rfl] at h
      exact ih (by simpa [Nat.add_comm] using h)
    · simp [slashRun, ha] at h
      subst h; exact ha

theorem tokLen_le : ∀ (l : Bytes), tokLen l ≤ l.length := by
  intro l
  induction l with
  | nil => simp [tokLen]
  | cons c cs ih =>
    by_cases hc : c = '/' ∨ c = NUL
    · simp [tokLen, hc]
    · simp only [tokLen, if_neg hc, List.length_cons]
      omega

/-- The token scan of a clean token stops exactly at the terminator that
follows it. -/
theorem tokLen_clean_append {t : Bytes} (r : Bytes) (hs : '/' ∉ t) (hn : NUL ∉ t)
    (hr : r.head? = some '/' ∨ r.head? = some NUL) : tokLen (t ++ r) = t.length := by
  induction t with
  | nil =>
    cases r with
    | nil => simp at hr
    | cons c r' =>
      simp at hr
      rcases hr with rfl | rfl
      · simp [tokLen]
      · simp [tokLen]
  | cons a t ih =>
    have ha : ¬(a = '/' ∨ a = NUL) := by
      rintro (rfl | rfl)
      · exact hs (by simp)
      · exact hn (by simp)
    have ihh := ih (fun hx => hs (List.mem_cons_of_mem _ hx))
      (fun hx => hn (List.mem_cons_of_mem _ hx))
    rw [List.cons_append,
      show tokLen (a :: (t ++ r)) = tokLen (t ++ r) + 1 from by simp [tokLen, ha],
      ihh, List.length_cons]

/-- Basic facts extracted from a successful `strtok_r` call. -/
theorem strtokR_bounds {buf : Bytes} {i j n : Nat} {buf1 : Bytes} {i1 : Nat}
    (h : strtokR buf i = some (j, n, buf1, i1)) :
    i ≤ j ∧ 1 ≤ n ∧ j < buf.length ∧ j + n ≤ buf.length ∧
      i1 = j + n + 1 ∧ buf1 = buf.set (j + n) NUL := by
  unfold strtokR at h
  cases hh : (restAt buf i).head? with
  | none => rw [hh] at h; simp at h
  | some c =>
    rw [hh] at h
    simp only [] at h
    by_cases hc : c = NUL
    · rw [if_pos hc] at h; simp at h
    · rw [if_neg hc, Option.some.injEq, Prod.mk.injEq, Prod.mk.injEq, Prod.mk.injEq] at h
      obtain ⟨h1, h2, h3, h4⟩ := h
      have hcs : c ≠ '/' := slashRun_head_ne hh
      have hdrop : restAt buf i = buf.drop (tokStart buf i) := by
        unfold restAt tokStart
        rw [List.drop_drop]
      have hget : buf[tokStart buf i]? = some c := by
        rw [← List.head?_drop, ← hdrop, hh]
      have hlt : tokStart buf i < buf.length := (List.getElem?_eq_some.mp hget).1
      have hn1 : 1 ≤ tokLen (restAt buf i) := by
        cases hdd : restAt buf i with
        | nil => rw [hdd] at hh; simp at hh
        | cons x xs =>
          rw [hdd] at hh
          simp at hh
          subst hh
          simp [tokLen, hc, hcs]
      have hle : tokLen (restAt buf i) ≤ buf.length - tokStart buf i := by
        have h5 := tokLen_le (restAt buf i)
        rw [hdrop, List.length_drop] at h5
        rw [hdrop]
        exact h5
      have hij : i ≤ tokStart buf i := by unfold tokStart; omega
      refine ⟨by omega, by omega, by omega, by omega, by omega, ?_⟩
      rw [← h3, h1, h2]

theorem joinB_append_single {ds : List Bytes} (t : Bytes) (h : ds ≠ []) :
    joinB (ds ++ [t]) = joinB ds ++ '/' :: t := by
  induction ds with
  | nil => exact absurd rfl h
  | cons d ds ih =>
    cases ds with
    | nil => simp [joinB]
    | cons d' ds' =>
      have := ih (by simp)
      simp only [List.cons_append, joinB, List.append_eq] at this ⊢
      rw [this]
      simp

theorem length_joinB_append_single {ds : List Bytes} (t : Bytes) (h : ds ≠ []) :
    (joinB (ds ++ [t])).length = (joinB ds).length + t.length + 1 := by
  rw [joinB_append_single t h]
  simp
  omega

/-- A byte that is not the separator and not in any token does not occur
in the joined path. -/
theorem not_mem_joinB {x : Char} (hx : x ≠ '/') :
    ∀ {ds : List Bytes}, (∀ d ∈ ds, x ∉ d) → x ∉ joinB ds := by
  intro ds
  induction ds with
  | nil => intro _; simp [joinB]
  | cons d ds ih =>
    intro h
    cases ds with
    | nil => simpa [joinB] using h d (by simp)
    | cons d' ds' =>
      simp only [joinB, List.mem_append, List.mem_cons]
      push_neg
      refine ⟨fun hm => h d (by simp) hm, fun he => hx he, ?_⟩
      exact ih (fun e he => h e (List.mem_cons_of_mem _ he))

theorem nul_not_mem_joinB {ds : List Bytes} (h : ∀ d ∈ ds, cleanTok d) :
    NUL ∉ joinB ds := by
  refine not_mem_joinB ?_ (fun d hd => (h d hd).2.2)
  intro hx
  have : (NUL).toNat = '/'.toNat := by rw [hx]
  simp [NUL] at this

/-- The head byte of a joined nonempty clean token list is not the
separator. -/
theorem joinB_cons_head {t : Bytes} (ts : List Bytes) (ht : cleanTok t) :
    ∃ c r, joinB (t :: ts) = c :: r ∧ c ≠ '/' ∧ c ≠ NUL := by
  obtain ⟨c, t', rfl⟩ : ∃ c t', t = c :: t' := by
    cases t with
    | nil => exact absurd rfl ht.1
    | cons c t' => exact ⟨c, t', rfl⟩
  have hc1 : c ≠ '/' := fun hx => ht.2.1 (by simp [hx])
  have hc2 : c ≠ NUL := fun hx => ht.2.2 (by simp [hx])
  cases ts with
  | nil => exact ⟨c, t', rfl, hc1, hc2⟩
  | cons t'' ts' => exact ⟨c, t' ++ '/' :: joinB (t'' :: ts'), by simp [joinB], hc1, hc2⟩

/-- Extending a verified token list by one verified token. -/
theorem Ver_append_single {px : Posix} {SL : Bytes} {ds : List Bytes} {t : Bytes}
    (hv : Ver px SL ds) (ht : px.lstatOk (SL ++ joinB (ds ++ [t])) = true) :
    Ver px SL (ds ++ [t]) := by
  intro i h1 h2
  rcases Nat.lt_or_ge i (ds.length + 1) with hlt | hge
  · by_cases he : i = ds.length + 1
    · omega
    · have hi : i ≤ ds.length := by omega
      rw [List.take_append_of_le_length hi]
      exact hv i h1 hi
  · have hi : i = ds.length + 1 := by simp at h2; omega
    subst hi
    rw [List.take_of_length_le (by simp)]
    exact ht

/-- The whole verified list passes `lstat`. -/
theorem Ver_whole {px : Posix} {SL : Bytes} {ds : List Bytes}
    (hv : Ver px SL ds) (h : ds ≠ []) : px.lstatOk (SL ++ joinB ds) = true := by
  have := hv ds.length (by cases ds with | nil => exact absurd rfl h | cons a l => simp) le_rfl
  simpa using this

/-- Start index of the token processed in the iteration at state
`(SL, ds)`: the leading separator run is skipped on the first
iteration. -/
def tokJ (SL : Bytes) (ds : List Bytes) : Nat :=
  if ds = [] then SL.length else ptrOf SL ds

/-- The bytes after the current token once strtok has nulled its
terminator: just the final NUL when the token was last, otherwise the
nulled separator, the unprocessed remainder and the final NUL. -/
def nulTail (X : Bytes) : Bytes :=
  match X with
  | [] => [NUL]
  | _ :: X' => NUL :: (X' ++ [NUL])

/-- The remainder argument of the next loop state. -/
def nextR (X : Bytes) : Bytes :=
  match X with
  | [] => []
  | _ :: X' => X' ++ [NUL]

theorem set_append_offset {α : Type} (A r : List α) (i : Nat) (x : α) :
    (A ++ r).set (A.length + i) x = A ++ r.set i x := by
  have h : (A ++ r).set (A.length + i) x = A ++ r.set (A.length + i - A.length) x :=
    List.set_append_right _ x (Nat.le_add_right _ _)
  simp only [Nat.add_sub_cancel_left] at h
  exact h

/-- Writing a separator over a byte of a separator run changes
nothing. -/
theorem set_slashes {S : Bytes} (hS : ∀ c ∈ S, c = '/') {k : Nat} (hk : k < S.length) :
    S.set k '/' = S := by
  apply set_of_getElem?
  rw [List.getElem?_eq_getElem hk]
  exact congrArg some (hS _ (List.getElem_mem hk))

/-- Computation of one successful `strtok_r` call at a structured state:
past the `p` processed bytes sit a separator run, a clean token, and the
rest. -/
theorem strtokR_generic {Q V t X : Bytes} {p : Nat} (hQ : Q.length = p)
    (hV : ∀ c ∈ V, c = '/') (ht : cleanTok t)
    (hX : X = [] ∨ ∃ X', X = '/' :: X') :
    strtokR (Q ++ V ++ t ++ X ++ [NUL]) p =
      some (p + V.length, t.length,
        Q ++ V ++ t ++ nulTail X, p + V.length + t.length + 1) := by
  obtain ⟨c, t', rfl⟩ : ∃ c t', t = c :: t' := by
    cases t with
    | nil => exact absurd rfl ht.1
    | cons c t' => exact ⟨c, t', rfl⟩
  have hc1 : c ≠ '/' := fun hx => ht.2.1 (by simp [hx])
  have hc2 : c ≠ NUL := fun hx => ht.2.2 (by simp [hx])
  have hdropP : (Q ++ V ++ (c :: t') ++ X ++ [NUL]).drop p = V ++ (c :: t') ++ X ++ [NUL] := by
    rw [show Q ++ V ++ (c :: t') ++ X ++ [NUL] = Q ++ (V ++ (c :: t') ++ X ++ [NUL]) from by
      simp [List.append_assoc]]
    exact List.drop_left' hQ
  have hrun : slashRun (V ++ (c :: t') ++ X ++ [NUL]) = V.length := by
    rw [show V ++ (c :: t') ++ X ++ [NUL] = V ++ (c :: (t' ++ X ++ [NUL])) from by
      simp [List.append_assoc]]
    rw [slashRun_slashes_append _ hV, slashRun_cons_of_ne _ hc1]
    omega
  have hrest : restAt (Q ++ V ++ (c :: t') ++ X ++ [NUL]) p = (c :: t') ++ X ++ [NUL] := by
    unfold restAt
    rw [hdropP, hrun]
    rw [show V ++ (c :: t') ++ X ++ [NUL] = V ++ ((c :: t') ++ X ++ [NUL]) from by
      simp [List.append_assoc]]
    exact List.drop_left' rfl
  have htokS : tokStart (Q ++ V ++ (c :: t') ++ X ++ [NUL]) p = p + V.length := by
    unfold tokStart
    rw [hdropP, hrun]
  have hXhead : (X ++ [NUL]).head? = some '/' ∨ (X ++ [NUL]).head? = some NUL := by
    rcases hX with rfl | ⟨X', rfl⟩
    · right; simp
    · left; simp
  have htokL : tokLen ((c :: t') ++ X ++ [NUL]) = (c :: t').length := by
    rw [show (c :: t') ++ X ++ [NUL] = (c :: t') ++ (X ++ [NUL]) from by simp [List.append_assoc]]
    exact tokLen_clean_append _ ht.2.1 ht.2.2 hXhead
  have hset : (Q ++ V ++ (c :: t') ++ X ++ [NUL]).set (p + V.length + (c :: t').length) NUL =
      Q ++ V ++ (c :: t') ++ nulTail X := by
    rw [show Q ++ V ++ (c :: t') ++ X ++ [NUL] =
        Q ++ (V ++ ((c :: t') ++ (X ++ [NUL]))) from by simp [List.append_assoc]]
    rw [show p + V.length + (c :: t').length =
        Q.length + (V.length + ((c :: t').length + 0)) from by omega]
    rw [set_append_offset, set_append_offset, set_append_offset]
    have : (X ++ [NUL]).set 0 NUL = nulTail X := by
      rcases hX with rfl | ⟨X', rfl⟩
      · simp [nulTail]
      · simp [nulTail]
    rw [this]
    simp [List.append_assoc]
  unfold strtokR
  rw [hrest]
  rw [show ((c :: t') ++ X ++ [NUL]).head? = some c from by simp]
  simp only []
  rw [if_neg hc2, htokS, htokL, hset]

/-- Computation of an end-of-string `strtok_r` call: after the
processed bytes only a separator run and then a NUL (or nothing)
remain. -/
theorem strtokR_none {Q V r : Bytes} {p : Nat} (hQ : Q.length = p)
    (hV : ∀ c ∈ V, c = '/') (hr : r.head? = some NUL ∨ r = []) :
    strtokR (Q ++ V ++ r) p = none := by
  have hdropP : (Q ++ V ++ r).drop p = V ++ r := by
    rw [show Q ++ V ++ r = Q ++ (V ++ r) from by simp [List.append_assoc]]
    exact List.drop_left' hQ
  have hrun : slashRun (V ++ r) = V.length := by
    rw [slashRun_slashes_append _ hV]
    rcases hr with hr | rfl
    · cases r with
      | nil => simp at hr
      | cons x r' =>
        simp at hr
        subst hr
        have hnsl : NUL ≠ '/' := by
          intro hx
          have : NUL.toNat = '/'.toNat := by rw [hx]
          simp [NUL] at this
        rw [slashRun_cons_of_ne _ hnsl]
        omega
    · simp [slashRun]
  have hrest : restAt (Q ++ V ++ r) p = r := by
    unfold restAt
    rw [hdropP, hrun]
    exact List.drop_left' rfl
  unfold strtokR
  rw [hrest]
  rcases hr with hr | rfl
  · rw [hr]
    simp
  · rfl

theorem NUL_ne_slash : NUL ≠ '/' := by
  intro hx
  have : NUL.toNat = '/'.toNat := by rw [hx]
  simp [NUL] at this

theorem NUL_ne_dot : NUL ≠ DOTC := by
  intro hx
  have : NUL.toNat = DOTC.toNat := by rw [hx]
  simp [NUL, DOTC] at this

/-- The C-string view stops right at a `nulTail`. -/
theorem cstr_append_nulTail {A : Bytes} (X : Bytes) (h : NUL ∉ A) :
    cstr (A ++ nulTail X) = A := by
  cases X with
  | nil => exact cstr_append_nul [] h
  | cons x X' => exact cstr_append_nul (X' ++ [NUL]) h

/-- One-step unfolding of the loop at positive fuel. -/
theorem fixLoopF_succ (px : Posix) (fuel : Nat) (buf : Bytes) (ptr scans live : Nat) :
    fixLoopF px (fuel + 1) buf ptr scans live =
      match strtokR buf ptr with
      | none => ⟨some buf, scans, live⟩
      | some (j, n, buf1, ptr') =>
        let buf2 := if j ≠ 0 then buf1.set (j - 1) '/' else buf1
        if px.lstatOk (cstr buf2) then
          fixLoopF px fuel buf2 ptr' scans live
        else
          let parent := if j ≠ 0 then cstr (buf2.take j) else [DOTC]
          match px.opendirD parent with
          | none => ⟨none, scans + 1, live + 1 - 1 - 1⟩
          | some es =>
            match findCaseMatch es ((buf2.drop j).take n) with
            | none => ⟨none, scans + 1, live + 1 - 1 - 1⟩
            | some name =>
              fixLoopF px fuel (setRange buf2 j (name ++ [NUL])) ptr' (scans + 1)
                (live + 1 - 1) := rfl

/-- One iteration of the resolver loop at a structured state: the token
is verified with `lstat` of the corrected prefix as a C string, and on
failure the parent directory is scanned and the first case-insensitive
match is copied over the token in place. -/
theorem step_main (px : Posix) (fuel : Nat) (SL : Bytes) (ds : List Bytes) (t X : Bytes)
    (scans live : Nat) (hSL : ∀ c ∈ SL, c = '/') (hds : ∀ d ∈ ds, cleanTok d)
    (ht : cleanTok t) (hX : X = [] ∨ ∃ X', X = '/' :: X') :
    fixLoopF px (fuel + 1) (stateBuf SL ds (t ++ X ++ [NUL])) (ptrOf SL ds) scans live =
      if px.lstatOk (SL ++ joinB (ds ++ [t])) = true then
        fixLoopF px fuel (stateBuf SL (ds ++ [t]) (nextR X)) (ptrOf SL (ds ++ [t])) scans live
      else
        match px.opendirD (parentSL SL ds) with
        | none => ⟨none, scans + 1, live + 1 - 1 - 1⟩
        | some es =>
          match findCaseMatch es t with
          | none => ⟨none, scans + 1, live + 1 - 1 - 1⟩
          | some name =>
            fixLoopF px fuel (stateBuf SL (ds ++ [name]) (nextR X)) (ptrOf SL (ds ++ [name]))
              (scans + 1) (live + 1 - 1) := by
  have hnSL : NUL ∉ SL := fun hm => NUL_ne_slash (hSL _ hm)
  have hnt : NUL ∉ t := ht.2.2
  by_cases hds0 : ds = []
  · subst hds0
    have hbufE : stateBuf SL [] (t ++ X ++ [NUL]) = SL ++ t ++ X ++ [NUL] := by
      simp [stateBuf, pfxPart]
    have hptrE : ptrOf SL [] = 0 := by simp [ptrOf]
    have hstrtok : strtokR (SL ++ t ++ X ++ [NUL]) 0 =
        some (SL.length, t.length, SL ++ t ++ nulTail X, SL.length + t.length + 1) := by
      have h := strtokR_generic (Q := []) (V := SL) (t := t) (X := X) (p := 0) rfl hSL ht hX
      simpa using h
    rw [hbufE, hptrE, fixLoopF_succ, hstrtok]
    simp only []
    have hbuf2 : (if SL.length ≠ 0 then (SL ++ t ++ nulTail X).set (SL.length - 1) '/'
        else SL ++ t ++ nulTail X) = SL ++ t ++ nulTail X := by
      by_cases hSL0 : SL.length = 0
      · simp [hSL0]
      · rw [if_pos hSL0]
        rw [show SL ++ t ++ nulTail X = SL ++ (t ++ nulTail X) from by simp]
        rw [List.set_append_left _ _ (show SL.length - 1 < SL.length by omega)]
        rw [set_slashes hSL (by omega)]
    rw [hbuf2]
    have hnST : NUL ∉ SL ++ t := by
      simp only [List.mem_append]
      rintro (hm | hm)
      · exact hnSL hm
      · exact hnt hm
    have hcstr : cstr (SL ++ t ++ nulTail X) = SL ++ t := by
      rw [show SL ++ t ++ nulTail X = (SL ++ t) ++ nulTail X from by simp]
      exact cstr_append_nulTail X hnST
    rw [hcstr]
    rw [show SL ++ joinB ([] ++ [t]) = SL ++ t from by simp [joinB]]
    by_cases hl : px.lstatOk (SL ++ t) = true
    · rw [if_pos hl, if_pos hl]
      have hb : stateBuf SL ([] ++ [t]) (nextR X) = SL ++ t ++ nulTail X := by
        rcases hX with rfl | ⟨X', rfl⟩
        · simp [stateBuf, pfxPart, nextR, nulTail, joinB]
        · simp [stateBuf, pfxPart, nextR, nulTail, joinB]
      have hp : ptrOf SL ([] ++ [t]) = SL.length + t.length + 1 := by
        simp [ptrOf, joinB]
      rw [hb, hp]
    · rw [if_neg hl, if_neg hl]
      have hparent : (if SL.length ≠ 0 then cstr ((SL ++ t ++ nulTail X).take SL.length)
          else [DOTC]) = parentSL SL [] := by
        by_cases hSL0 : SL.length = 0
        · have hSLnil : SL = [] := List.length_eq_zero.mp hSL0
          subst hSLnil
          simp [parentSL]
        · rw [if_pos hSL0]
          rw [show SL ++ t ++ nulTail X = SL ++ (t ++ nulTail X) from by simp]
          rw [List.take_left]
          rw [cstr_of_no_nul hnSL]
          have hSLne : SL ≠ [] := fun h => hSL0 (by simp [h])
          simp [parentSL, hSLne]
      rw [hparent]
      have htok : ((SL ++ t ++ nulTail X).drop SL.length).take t.length = t := by
        rw [show SL ++ t ++ nulTail X = SL ++ (t ++ nulTail X) from by simp]
        rw [List.drop_left]
        exact List.take_left t (nulTail X)
      rw [htok]
      cases hop : px.opendirD (parentSL SL []) with
      | none => rfl
      | some es =>
        simp only []
        cases hfm : findCaseMatch es t with
        | none => rfl
        | some name =>
          simp only []
          have hlen : name.length = t.length := caseEq_length (findCaseMatch_spec hfm).1
          have hsetr : setRange (SL ++ t ++ nulTail X) SL.length (name ++ [NUL]) =
              SL ++ name ++ nulTail X := by
            rw [show SL ++ t ++ nulTail X = SL ++ (t ++ nulTail X) from by simp]
            rw [setRange_append]
            rw [setRange_zero_front _ _ (by
              cases X with
              | nil => simp [nulTail, hlen]
              | cons x X' => simp [nulTail, hlen])]
            rw [show (name ++ [NUL]).length = t.length + 1 from by simp [hlen]]
            rw [show t.length + 1 = t.length + 1 from rfl, List.drop_append 1]
            cases X with
            | nil => simp [nulTail]
            | cons x X' => simp [nulTail]
          have hb : stateBuf SL ([] ++ [name]) (nextR X) = SL ++ name ++ nulTail X := by
            rcases hX with rfl | ⟨X', rfl⟩
            · simp [stateBuf, pfxPart, nextR, nulTail, joinB]
            · simp [stateBuf, pfxPart, nextR, nulTail, joinB]
          have hp : ptrOf SL ([] ++ [name]) = SL.length + t.length + 1 := by
            simp [ptrOf, joinB, hlen]
          rw [hsetr, hb, hp]
  · have hJne : NUL ∉ joinB ds := nul_not_mem_joinB hds
    have hdst : ds ++ [t] ≠ [] := by simp
    have hbufE : stateBuf SL ds (t ++ X ++ [NUL]) =
        (SL ++ (joinB ds ++ [NUL])) ++ [] ++ t ++ X ++ [NUL] := by
      simp [stateBuf, pfxPart, hds0]
    have hQlen : (SL ++ (joinB ds ++ [NUL])).length = ptrOf SL ds := by
      simp [ptrOf, hds0]
      omega
    have hstrtok : strtokR (stateBuf SL ds (t ++ X ++ [NUL])) (ptrOf SL ds) =
        some (ptrOf SL ds, t.length,
          SL ++ joinB ds ++ [NUL] ++ t ++ nulTail X, ptrOf SL ds + t.length + 1) := by
      have h := strtokR_generic (Q := SL ++ (joinB ds ++ [NUL])) (V := []) (t := t) (X := X)
        (p := ptrOf SL ds) hQlen (by simp) ht hX
      rw [hbufE]
      simpa using h
    rw [fixLoopF_succ, hstrtok]
    simp only []
    have hptrpos : ptrOf SL ds ≠ 0 := by
      simp [ptrOf, hds0]
    have hbuf2 : (SL ++ joinB ds ++ [NUL] ++ t ++ nulTail X).set (ptrOf SL ds - 1) '/' =
        SL ++ joinB (ds ++ [t]) ++ nulTail X := by
      rw [show SL ++ joinB ds ++ [NUL] ++ t ++ nulTail X =
          (SL ++ joinB ds) ++ (NUL :: (t ++ nulTail X)) from by simp]
      rw [show ptrOf SL ds - 1 = (SL ++ joinB ds).length + 0 from by simp [ptrOf, hds0]]
      rw [set_append_offset]
      rw [show (NUL :: (t ++ nulTail X)).set 0 '/' = '/' :: (t ++ nulTail X) from rfl]
      rw [joinB_append_single t hds0]
      simp
    rw [if_pos hptrpos, hbuf2]
    have hnJt : NUL ∉ SL ++ joinB (ds ++ [t]) := by
      have hmem : NUL ∉ joinB (ds ++ [t]) := by
        apply nul_not_mem_joinB
        intro d hd
        rcases List.mem_append.mp hd with hd1 | hd2
        · exact hds d hd1
        · simp at hd2
          subst hd2
          exact ht
      simp only [List.mem_append]
      rintro (hm | hm)
      · exact hnSL hm
      · exact hmem hm
    have hcstr : cstr (SL ++ joinB (ds ++ [t]) ++ nulTail X) = SL ++ joinB (ds ++ [t]) := by
      rw [show SL ++ joinB (ds ++ [t]) ++ nulTail X =
          (SL ++ joinB (ds ++ [t])) ++ nulTail X from by simp]
      exact cstr_append_nulTail X hnJt
    rw [hcstr]
    by_cases hl : px.lstatOk (SL ++ joinB (ds ++ [t])) = true
    · rw [if_pos hl, if_pos hl]
      have hb : stateBuf SL (ds ++ [t]) (nextR X) = SL ++ joinB (ds ++ [t]) ++ nulTail X := by
        rcases hX with rfl | ⟨X', rfl⟩
        · simp [stateBuf, pfxPart, hdst, nextR, nulTail]
        · simp [stateBuf, pfxPart, hdst, nextR, nulTail]
      have hp : ptrOf SL (ds ++ [t]) = ptrOf SL ds + t.length + 1 := by
        simp [ptrOf, hds0, hdst, length_joinB_append_single t hds0]
        omega
      rw [hb, hp]
    · rw [if_neg hl, if_neg hl]
      have hgroup : SL ++ joinB (ds ++ [t]) ++ nulTail X =
          (SL ++ joinB ds ++ ['/']) ++ (t ++ nulTail X) := by
        rw [joinB_append_single t hds0]
        simp
      have hplen : (SL ++ joinB ds ++ ['/']).length = ptrOf SL ds := by
        simp [ptrOf, hds0]
        omega
      have hparent : (if ptrOf SL ds ≠ 0 then
          cstr ((SL ++ joinB (ds ++ [t]) ++ nulTail X).take (ptrOf SL ds))
          else [DOTC]) = parentSL SL ds := by
        rw [if_pos hptrpos, hgroup, List.take_left' hplen]
        have hnP : NUL ∉ SL ++ joinB ds ++ ['/'] := by
          simp only [List.mem_append, List.mem_singleton]
          rintro ((hm | hm) | hm)
          · exact hnSL hm
          · exact hJne hm
          · exact NUL_ne_slash hm
        rw [cstr_of_no_nul hnP]
        simp [parentSL, hds0]
      rw [hparent]
      have htok : ((SL ++ joinB (ds ++ [t]) ++ nulTail X).drop (ptrOf SL ds)).take t.length
          = t := by
        rw [hgroup, List.drop_left' hplen]
        exact List.take_left t (nulTail X)
      rw [htok]
      cases hop : px.opendirD (parentSL SL ds) with
      | none => rfl
      | some es =>
        simp only []
        cases hfm : findCaseMatch es t with
        | none => rfl
        | some name =>
          simp only []
          have hlen : name.length = t.length := caseEq_length (findCaseMatch_spec hfm).1
          have hsetr : setRange (SL ++ joinB (ds ++ [t]) ++ nulTail X) (ptrOf SL ds)
              (name ++ [NUL]) = SL ++ joinB (ds ++ [name]) ++ nulTail X := by
            rw [hgroup, show ptrOf SL ds = (SL ++ joinB ds ++ ['/']).length from hplen.symm]
            rw [setRange_append]
            rw [setRange_zero_front _ _ (by
              cases X with
              | nil => simp [nulTail, hlen]
              | cons x X' => simp [nulTail, hlen])]
            rw [show (name ++ [NUL]).length = t.length + 1 from by simp [hlen]]
            rw [List.drop_append 1]
            rw [joinB_append_single name hds0]
            cases X with
            | nil => simp [nulTail]
            | cons x X' => simp [nulTail]
          have hb : stateBuf SL (ds ++ [name]) (nextR X) =
              SL ++ joinB (ds ++ [name]) ++ nulTail X := by
            rcases hX with rfl | ⟨X', rfl⟩
            · simp [stateBuf, pfxPart, show ds ++ [name] ≠ [] from by simp, nextR, nulTail]
            · simp [stateBuf, pfxPart, show ds ++ [name] ≠ [] from by simp, nextR, nulTail]
          have hp : ptrOf SL (ds ++ [name]) = ptrOf SL ds + t.length + 1 := by
            simp [ptrOf, hds0, show ds ++ [name] ≠ [] from by simp,
              length_joinB_append_single name hds0, hlen]
            omega
          rw [hsetr, hb, hp]

/-- The loop returns the buffer as soon as `strtok_r` finds no further
token: only a separator run and the terminating NUL remain. -/
theorem loop_end (px : Posix) (fuel : Nat) {Q V r : Bytes} {p : Nat} (hQ : Q.length = p)
    (hV : ∀ c ∈ V, c = '/') (hr : r.head? = some NUL ∨ r = []) (scans live : Nat) :
    fixLoopF px (fuel + 1) (Q ++ V ++ r) p scans live =
      ⟨some (Q ++ V ++ r), scans, live⟩ := by
  rw [fixLoopF_succ, strtokR_none hQ hV hr]

/-- A clean token list is no longer than its joined path. -/
theorem length_le_length_joinB : ∀ {ts : List Bytes}, (∀ u ∈ ts, cleanTok u) →
    ts.length ≤ (joinB ts).length := by
  intro ts
  induction ts with
  | nil => intro _; simp [joinB]
  | cons t ts ih =>
    intro h
    have ht : t ≠ [] := (h t (by simp)).1
    have h1 : 1 ≤ t.length := by
      cases t with
      | nil => exact absurd rfl ht
      | cons a l => simp
    cases ts with
    | nil => simpa [joinB] using h1
    | cons t' ts' =>
      have := ih (fun u hu => h u (List.mem_cons_of_mem _ hu))
      simp only [joinB, List.length_cons, List.length_append] at this ⊢
      omega

/-- The parent strings built for a non-initial position are never the
DOT token. -/
theorem parentSL_ne_dot {SL : Bytes} {ds : List Bytes} (hSL : ∀ c ∈ SL, c = '/')
    (h : SL ≠ [] ∨ ds ≠ []) : parentSL SL ds ≠ [DOTC] := by
  by_cases hds0 : ds = []
  · subst hds0
    have hSLne : SL ≠ [] := by
      rcases h with h | h
      · exact h
      · exact absurd rfl h
    intro hx
    rw [parentSL, if_pos rfl, if_neg hSLne] at hx
    cases SL with
    | nil => exact hSLne rfl
    | cons c SL' =>
      have hc : c = '/' := hSL c (by simp)
      rw [List.cons.injEq] at hx
      have : ('/' : Char).toNat = DOTC.toNat := by rw [← hc, hx.1]
      simp [DOTC] at this
  · intro hx
    rw [parentSL, if_neg hds0] at hx
    have hlen := congrArg List.length hx
    simp at hlen
    have hSLnil : SL = [] := List.length_eq_zero.mp (by omega)
    have hJnil : (joinB ds).length = 0 := by omega
    rw [hSLnil, List.length_eq_zero.mp hJnil] at hx
    simp at hx
    have : ('/' : Char).toNat = DOTC.toNat := by rw [hx]
    simp [DOTC] at this

/-- Fast-forward: once a NUL is stuck strictly before the region the
loop still visits and the visible C string passes `lstat`, every further
iteration takes the verification branch, and the loop ends successfully
without any directory scan, preserving the visible C string. -/
theorem loop_ff (px : Posix) : ∀ (fuel : Nat) (buf : Bytes) (ptr scans live q : Nat),
    q + 1 < ptr → buf[q]? = some NUL → px.lstatOk (cstr buf) = true →
    ptr ≤ buf.length + 1 → buf.length + 2 ≤ 2 * fuel + ptr →
    ∃ F, fixLoopF px fuel buf ptr scans live = ⟨some F, scans, live⟩ ∧ cstr F = cstr buf := by
  intro fuel
  induction fuel with
  | zero =>
    intro buf ptr scans live q hq hnul hl hptr hfuel
    omega
  | succ fuel ih =>
    intro buf ptr scans live q hq hnul hl hptr hfuel
    rw [fixLoopF_succ]
    cases hst : strtokR buf ptr with
    | none => exact ⟨buf, rfl, rfl⟩
    | some val =>
      obtain ⟨j, n, buf1, ptr'⟩ := val
      obtain ⟨hij, hn1, hjl, hjnl, hptr', hbuf1⟩ := strtokR_bounds hst
      simp only []
      have hjpos : j ≠ 0 := by omega
      rw [if_pos hjpos]
      have hq1 : (buf1.set (j - 1) '/')[q]? = some NUL := by
        rw [getElem?_set_of_ne _ _ _ _ (by omega), hbuf1,
          getElem?_set_of_ne _ _ _ _ (by omega), hnul]
      have hcstr2 : cstr (buf1.set (j - 1) '/') = cstr buf := by
        rw [cstr_eq_cstr_take q hq1, cstr_eq_cstr_take q hnul]
        rw [take_set_of_le _ _ _ _ (by omega), hbuf1, take_set_of_le _ _ _ _ (by omega)]
      rw [hcstr2, if_pos hl]
      have hlen2 : (buf1.set (j - 1) '/').length = buf.length := by
        rw [hbuf1]
        simp
      obtain ⟨F, hF, hFc⟩ := ih (buf1.set (j - 1) '/') ptr' scans live q (by omega) hq1
        (by rw [hcstr2]; exact hl) (by rw [hlen2]; omega) (by rw [hlen2]; omega)
      exact ⟨F, hF, by rw [hFc, hcstr2]⟩

theorem getElem?_append_cons {α : Type} (A : List α) (x : α) (r : List α) :
    (A ++ x :: r)[A.length]? = some x := by
  rw [List.getElem?_append_right (le_refl _)]
  simp

/-- The head of a nonempty `dropWhile` result fails the predicate. -/
theorem dropWhile_cons_head_false {α : Type} {p : α → Bool} :
    ∀ {l : List α} {w : α} {W1 : List α}, l.dropWhile p = w :: W1 → p w = false := by
  intro l
  induction l with
  | nil => intro w W1 h; simp at h
  | cons a l ih =>
    intro w W1 h
    by_cases hp : p a
    · rw [List.dropWhile_cons_of_pos hp] at h
      exact ih h
    · rw [List.dropWhile_cons_of_neg hp] at h
      rw [List.cons.injEq] at h
      rw [← h.1]
      simpa using hp

/-- After processing `ds`, a remainder that starts with a separator
means the NUL that strtok wrote over the previous separator is never
restored: the visible C string is frozen, every later `lstat` sees it
and succeeds, and the loop ends successfully with no further scan. -/
theorem loop_gap (px : Posix) (fuel : Nat) (SL : Bytes) (ds : List Bytes) (R' : Bytes)
    (scans live : Nat) (hSL : ∀ c ∈ SL, c = '/') (hds : ∀ d ∈ ds, cleanTok d)
    (hds0 : ds ≠ []) (hR : NUL ∉ R') (hl : px.lstatOk (SL ++ joinB ds) = true)
    (hadq : (stateBuf SL ds ('/' :: R' ++ [NUL])).length + 2 ≤ 2 * (fuel + 1) + ptrOf SL ds) :
    ∃ F, fixLoopF px (fuel + 1) (stateBuf SL ds ('/' :: R' ++ [NUL])) (ptrOf SL ds)
        scans live = ⟨some F, scans, live⟩ ∧ cstr F = SL ++ joinB ds := by
  have hnSL : NUL ∉ SL := fun hm => NUL_ne_slash (hSL _ hm)
  have hJne : NUL ∉ joinB ds := nul_not_mem_joinB hds
  have hnQ : NUL ∉ SL ++ joinB ds := by
    simp only [List.mem_append]
    rintro (hm | hm)
    · exact hnSL hm
    · exact hJne hm
  have hQlen : (SL ++ (joinB ds ++ [NUL])).length = ptrOf SL ds := by
    simp [ptrOf, hds0]
    omega
  obtain ⟨S2, hS2def⟩ : ∃ S2, ('/' :: R').takeWhile (fun c => c = '/') = S2 := ⟨_, rfl⟩
  obtain ⟨W, hWdef⟩ : ∃ W, ('/' :: R').dropWhile (fun c => c = '/') = W := ⟨_, rfl⟩
  have hsplit : S2 ++ W = '/' :: R' := by
    rw [← hS2def, ← hWdef]
    exact List.takeWhile_append_dropWhile _ _
  have hS2 : ∀ c ∈ S2, c = '/' := by
    intro c hc
    rw [← hS2def] at hc
    simpa using List.mem_takeWhile_imp hc
  have hS2ne : S2 ≠ [] := by
    rw [← hS2def, List.takeWhile_cons_of_pos (by simp)]
    simp
  have hS2len : 1 ≤ S2.length := by
    cases hS : S2 with
    | nil => exact absurd hS hS2ne
    | cons a l => simp
  have hWmem : ∀ x ∈ W, x ∈ '/' :: R' := by
    intro x hx
    rw [← hWdef] at hx
    exact List.dropWhile_subset _ hx
  have hbufE : stateBuf SL ds ('/' :: R' ++ [NUL]) =
      (SL ++ (joinB ds ++ [NUL])) ++ S2 ++ W ++ [NUL] := by
    rw [show (SL ++ (joinB ds ++ [NUL])) ++ S2 ++ W ++ [NUL] =
        (SL ++ (joinB ds ++ [NUL])) ++ (S2 ++ W) ++ [NUL] from by simp]
    rw [hsplit]
    simp [stateBuf, pfxPart, hds0]
  cases hW : W with
  | nil =>
    rw [hbufE, hW]
    simp only [List.append_nil]
    have hend := loop_end px fuel
      (Q := SL ++ (joinB ds ++ [NUL])) (V := S2)
      (r := [NUL]) hQlen hS2 (by left; simp) scans live
    refine ⟨_, hend, ?_⟩
    rw [show (SL ++ (joinB ds ++ [NUL])) ++ S2 ++ [NUL] = (SL ++ joinB ds) ++
        NUL :: (S2 ++ [NUL]) from by simp]
    exact cstr_append_nul _ hnQ
  | cons w W1 =>
    subst hW
    have hw1 : ¬(w = '/') := by
      have := dropWhile_cons_head_false hWdef
      simpa using this
    have hnW : NUL ∉ w :: W1 := by
      intro hm
      rcases List.mem_cons.mp (hWmem _ hm) with hx | hx
      · exact NUL_ne_slash hx
      · exact hR hx
    obtain ⟨T, hTdef⟩ : ∃ T, (w :: W1).takeWhile (fun c => c ≠ '/') = T := ⟨_, rfl⟩
    obtain ⟨X, hXdef⟩ : ∃ X, (w :: W1).dropWhile (fun c => c ≠ '/') = X := ⟨_, rfl⟩
    have hsplitW : T ++ X = w :: W1 := by
      rw [← hTdef, ← hXdef]
      exact List.takeWhile_append_dropWhile _ _
    have ht : cleanTok T := by
      refine ⟨?_, ?_, ?_⟩
      · rw [← hTdef, List.takeWhile_cons_of_pos (by simpa using hw1)]
        simp
      · intro hm
        rw [← hTdef] at hm
        have := List.mem_takeWhile_imp hm
        simp at this
      · intro hm
        rw [← hTdef] at hm
        exact hnW (List.takeWhile_subset _ hm)
    have hXshape : X = [] ∨ ∃ X', X = '/' :: X' := by
      cases hXd : X with
      | nil => left; rfl
      | cons x X' =>
        right
        refine ⟨X', ?_⟩
        have hx := dropWhile_cons_head_false (p := fun c => c ≠ '/') (by rw [hXdef, hXd])
        simp at hx
        rw [hx]
    have hbufW : stateBuf SL ds ('/' :: R' ++ [NUL]) =
        (SL ++ (joinB ds ++ [NUL])) ++ S2 ++ T ++ X ++ [NUL] := by
      rw [hbufE]
      rw [show (SL ++ (joinB ds ++ [NUL])) ++ S2 ++ T ++ X ++ [NUL] =
          (SL ++ (joinB ds ++ [NUL])) ++ S2 ++ (T ++ X) ++ [NUL] from by simp]
      rw [hsplitW]
    have hstrtok := strtokR_generic (Q := SL ++ (joinB ds ++ [NUL]))
      (V := S2) (t := T) (X := X) hQlen hS2 ht hXshape
    have hq' : (SL ++ joinB ds).length + 1 = ptrOf SL ds := by
      rw [← hQlen]
      simp
      omega
    have hstateLen : (stateBuf SL ds ('/' :: R' ++ [NUL])).length =
        ptrOf SL ds + S2.length + T.length + X.length + 1 := by
      rw [hbufW, ← hQlen]
      simp
      omega
    have hT1 : 1 ≤ T.length := by
      cases hTc : T with
      | nil => exact absurd hTc ht.1
      | cons a l => simp
    rw [hbufW, fixLoopF_succ, hstrtok]
    simp only []
    have hjpos : ptrOf SL ds + S2.length ≠ 0 := by omega
    rw [if_pos hjpos]
    have hbuf2 : ((SL ++ (joinB ds ++ [NUL])) ++ S2 ++ T ++ nulTail X).set
          (ptrOf SL ds + S2.length - 1) '/' =
        (SL ++ (joinB ds ++ [NUL])) ++ S2 ++ T ++ nulTail X := by
      rw [show (SL ++ (joinB ds ++ [NUL])) ++ S2 ++ T ++ nulTail X =
          (SL ++ (joinB ds ++ [NUL])) ++ (S2 ++ (T ++ nulTail X)) from by simp]
      rw [show ptrOf SL ds + S2.length - 1 =
          (SL ++ (joinB ds ++ [NUL])).length + (S2.length - 1) from by rw [hQlen]; omega]
      rw [set_append_offset]
      rw [List.set_append_left _ _ (show S2.length - 1 < S2.length by omega)]
      rw [set_slashes hS2 (by omega)]
    rw [hbuf2]
    have hcstrv : cstr ((SL ++ (joinB ds ++ [NUL])) ++ S2 ++ T ++ nulTail X) =
        SL ++ joinB ds := by
      rw [show (SL ++ (joinB ds ++ [NUL])) ++ S2 ++ T ++ nulTail X =
          (SL ++ joinB ds) ++ NUL :: (S2 ++ (T ++ nulTail X)) from by simp]
      exact cstr_append_nul _ hnQ
    rw [hcstrv, if_pos hl]
    have hlenB : ((SL ++ (joinB ds ++ [NUL])) ++ S2 ++ T ++ nulTail X).length =
        (stateBuf SL ds ('/' :: R' ++ [NUL])).length := by
      rw [hbufW]
      have hnl : (nulTail X).length = X.length + 1 := by
        cases X with
        | nil => simp [nulTail]
        | cons x X' => simp [nulTail]
      simp [hnl]
    obtain ⟨F, hF, hFc⟩ := loop_ff px fuel
      ((SL ++ (joinB ds ++ [NUL])) ++ S2 ++ T ++ nulTail X)
      (ptrOf SL ds + S2.length + T.length + 1)
      scans live (SL ++ joinB ds).length
      (by omega)
      (by
        rw [show (SL ++ (joinB ds ++ [NUL])) ++ S2 ++ T ++ nulTail X =
            (SL ++ joinB ds) ++ NUL :: (S2 ++ (T ++ nulTail X)) from by simp]
        exact getElem?_append_cons _ _ _)
      (by rw [hcstrv]; exact hl)
      (by
        rw [hlenB]
        omega)
      (by
        rw [hlenB]
        omega)
    refine ⟨F, ?_, by rw [hFc, hcstrv]⟩
    exact hF

/-- A run over tokens whose every prefix already passes `lstat` performs
only verification steps: no directory is opened, no byte is changed, and
the loop ends with the buffer fully restored. -/
theorem loop_verified (px : Posix) : ∀ (ts : List Bytes) (fuel : Nat) (SL : Bytes)
    (ds : List Bytes) (scans live : Nat),
    (∀ c ∈ SL, c = '/') → (∀ d ∈ ds, cleanTok d) → (∀ u ∈ ts, cleanTok u) →
    (ds = [] → ts ≠ []) →
    (∀ i, 1 ≤ i → i ≤ ts.length → px.lstatOk (SL ++ joinB (ds ++ ts.take i)) = true) →
    ts.length < fuel →
    fixLoopF px fuel (stateBuf SL ds (if ts = [] then [] else joinB ts ++ [NUL]))
        (ptrOf SL ds) scans live =
      ⟨some (SL ++ joinB (ds ++ ts) ++ [NUL]), scans, live⟩ := by
  intro ts
  induction ts with
  | nil =>
    intro fuel SL ds scans live hSL hds hts hne hver hfuel
    have hds0 : ds ≠ [] := fun h => (hne h) rfl
    obtain ⟨f, rfl⟩ : ∃ f, fuel = f + 1 := ⟨fuel - 1, by omega⟩
    have hQlen : (SL ++ (joinB ds ++ [NUL])).length = ptrOf SL ds := by
      simp [ptrOf, hds0]
      omega
    have hend := loop_end px f (Q := SL ++ (joinB ds ++ [NUL])) (V := ([] : Bytes))
      (r := ([] : Bytes)) hQlen (by simp) (Or.inr rfl) scans live
    simpa [stateBuf, pfxPart, hds0] using hend
  | cons u ts ih =>
    intro fuel SL ds scans live hSL hds hts hne hver hfuel
    obtain ⟨f, rfl⟩ : ∃ f, fuel = f + 1 := ⟨fuel - 1, by omega⟩
    have hu : cleanTok u := hts u (by simp)
    have htail : ∀ v ∈ ts, cleanTok v := fun v hv => hts v (List.mem_cons_of_mem _ hv)
    have hXv : (if ts = [] then ([] : Bytes) else '/' :: joinB ts) = [] ∨
        ∃ X', (if ts = [] then ([] : Bytes) else '/' :: joinB ts) = '/' :: X' := by
      cases ts with
      | nil => left; simp
      | cons a l => right; exact ⟨joinB (a :: l), by simp⟩
    have hjoin : joinB (u :: ts) = u ++ (if ts = [] then [] else '/' :: joinB ts) := by
      cases ts with
      | nil => simp [joinB]
      | cons a l => simp [joinB]
    have hstep := step_main px f SL ds u (if ts = [] then [] else '/' :: joinB ts)
      scans live hSL hds hu hXv
    rw [show (if (u :: ts) = [] then ([] : Bytes) else joinB (u :: ts) ++ [NUL]) =
        joinB (u :: ts) ++ [NUL] from by simp]
    rw [show stateBuf SL ds (joinB (u :: ts) ++ [NUL]) =
        stateBuf SL ds (u ++ (if ts = [] then [] else '/' :: joinB ts) ++ [NUL]) from by
      rw [hjoin]]
    rw [hstep]
    have hl1 : px.lstatOk (SL ++ joinB (ds ++ [u])) = true := by
      have := hver 1 le_rfl (by simp)
      simpa using this
    rw [if_pos hl1]
    have hnext : nextR (if ts = [] then ([] : Bytes) else '/' :: joinB ts) =
        (if ts = [] then [] else joinB ts ++ [NUL]) := by
      cases ts with
      | nil => simp [nextR]
      | cons a l => simp [nextR]
    rw [hnext]
    have hverS : ∀ i, 1 ≤ i → i ≤ ts.length →
        px.lstatOk (SL ++ joinB ((ds ++ [u]) ++ ts.take i)) = true := by
      intro i h1 h2
      have := hver (i + 1) (by omega) (by simp; omega)
      rw [List.take_succ_cons] at this
      rw [show (ds ++ [u]) ++ ts.take i = ds ++ u :: ts.take i from by simp]
      exact this
    have hds' : ∀ d ∈ ds ++ [u], cleanTok d := by
      intro d hd
      rcases List.mem_append.mp hd with h | h
      · exact hds d h
      · simp at h
        subst h
        exact hu
    have hrec := ih f SL (ds ++ [u]) scans live hSL hds' htail
      (fun h => absurd h (by simp)) hverS (by simp at hfuel; omega)
    rw [hrec]
    rw [show (ds ++ [u]) ++ ts = ds ++ u :: ts from by simp]

/-- A run in which exactly one token is miscased: the segment before it
verifies, the scan of its parent directory substitutes the first
case-insensitive match, and the segment after it verifies against the
corrected prefix.  Exactly one directory is opened and every other token
is untouched. -/
theorem loop_one_fix (px : Posix) : ∀ (as : List Bytes) (fuel : Nat) (SL : Bytes)
    (ds : List Bytes) (b : Bytes) (cs es : List Bytes) (name : Bytes) (scans live : Nat),
    (∀ c ∈ SL, c = '/') → (∀ d ∈ ds, cleanTok d) → (∀ a ∈ as, cleanTok a) →
    cleanTok b → (∀ c ∈ cs, cleanTok c) → cleanTok name →
    (∀ i, 1 ≤ i → i ≤ as.length → px.lstatOk (SL ++ joinB (ds ++ as.take i)) = true) →
    px.lstatOk (SL ++ joinB (ds ++ as ++ [b])) = false →
    px.opendirD (parentSL SL (ds ++ as)) = some es →
    findCaseMatch es b = some name →
    (∀ i, 1 ≤ i → i ≤ cs.length →
      px.lstatOk (SL ++ joinB (ds ++ as ++ [name] ++ cs.take i)) = true) →
    (as ++ b :: cs).length < fuel →
    fixLoopF px fuel (stateBuf SL ds (joinB (as ++ b :: cs) ++ [NUL])) (ptrOf SL ds)
        scans live =
      ⟨some (SL ++ joinB (ds ++ as ++ name :: cs) ++ [NUL]), scans + 1, live⟩ := by
  intro as
  induction as with
  | nil =>
    intro fuel SL ds b cs es name scans live hSL hds _ hb hcs hnm hverA hmiss hdir
      hfind hverC hfuel
    obtain ⟨f, rfl⟩ : ∃ f, fuel = f + 1 := ⟨fuel - 1, by omega⟩
    have hXv : (if cs = [] then ([] : Bytes) else '/' :: joinB cs) = [] ∨
        ∃ X', (if cs = [] then ([] : Bytes) else '/' :: joinB cs) = '/' :: X' := by
      cases cs with
      | nil => left; simp
      | cons a l => right; exact ⟨joinB (a :: l), by simp⟩
    have hjoin : joinB (b :: cs) = b ++ (if cs = [] then [] else '/' :: joinB cs) := by
      cases cs with
      | nil => simp [joinB]
      | cons a l => simp [joinB]
    rw [show stateBuf SL ds (joinB ([] ++ b :: cs) ++ [NUL]) =
        stateBuf SL ds (b ++ (if cs = [] then [] else '/' :: joinB cs) ++ [NUL]) from by
      rw [List.nil_append, hjoin]]
    rw [step_main px f SL ds b (if cs = [] then [] else '/' :: joinB cs)
      scans live hSL hds hb hXv]
    have hmiss' : px.lstatOk (SL ++ joinB (ds ++ [b])) = false := by
      rw [show ds ++ [b] = ds ++ [] ++ [b] from by simp]
      exact hmiss
    rw [if_neg (by rw [hmiss']; simp)]
    have hdir' : px.opendirD (parentSL SL ds) = some es := by
      rw [show ds = ds ++ [] from by simp]
      exact hdir
    rw [hdir']
    simp only []
    rw [hfind]
    simp only []
    have hnext : nextR (if cs = [] then ([] : Bytes) else '/' :: joinB cs) =
        (if cs = [] then [] else joinB cs ++ [NUL]) := by
      cases cs with
      | nil => simp [nextR]
      | cons a l => simp [nextR]
    rw [hnext]
    have hds' : ∀ d ∈ ds ++ [name], cleanTok d := by
      intro d hd
      rcases List.mem_append.mp hd with h | h
      · exact hds d h
      · simp at h
        subst h
        exact hnm
    have hverC' : ∀ i, 1 ≤ i → i ≤ cs.length →
        px.lstatOk (SL ++ joinB ((ds ++ [name]) ++ cs.take i)) = true := by
      intro i h1 h2
      rw [show (ds ++ [name]) ++ cs.take i = ds ++ [] ++ [name] ++ cs.take i from by simp]
      exact hverC i h1 h2
    have hrec := loop_verified px cs f SL (ds ++ [name]) (scans + 1) (live + 1 - 1) hSL
      hds' hcs (fun h => absurd h (by simp)) hverC' (by simp at hfuel; omega)
    rw [hrec]
    rw [show (ds ++ [name]) ++ cs = ds ++ [] ++ name :: cs from by simp]
    rw [show live + 1 - 1 = live from by omega]
  | cons a as ih =>
    intro fuel SL ds b cs es name scans live hSL hds hasC hb hcs hnm hverA hmiss hdir
      hfind hverC hfuel
    obtain ⟨f, rfl⟩ : ∃ f, fuel = f + 1 := ⟨fuel - 1, by omega⟩
    have ha : cleanTok a := hasC a (by simp)
    have hjoin : joinB ((a :: as) ++ b :: cs) = a ++ '/' :: joinB (as ++ b :: cs) := by
      cases as with
      | nil => simp [joinB]
      | cons a' as' => simp [joinB]
    rw [show stateBuf SL ds (joinB ((a :: as) ++ b :: cs) ++ [NUL]) =
        stateBuf SL ds (a ++ ('/' :: joinB (as ++ b :: cs)) ++ [NUL]) from by
      rw [hjoin]]
    rw [step_main px f SL ds a ('/' :: joinB (as ++ b :: cs)) scans live hSL hds ha
      (Or.inr ⟨joinB (as ++ b :: cs), rfl⟩)]
    have hl1 : px.lstatOk (SL ++ joinB (ds ++ [a])) = true := by
      have := hverA 1 le_rfl (by simp)
      simpa using this
    rw [if_pos hl1]
    rw [show nextR ('/' :: joinB (as ++ b :: cs)) = joinB (as ++ b :: cs) ++ [NUL] from by
      simp [nextR]]
    have hds' : ∀ d ∈ ds ++ [a], cleanTok d := by
      intro d hd
      rcases List.mem_append.mp hd with h | h
      · exact hds d h
      · simp at h
        subst h
        exact ha
    have hasC' : ∀ x ∈ as, cleanTok x := fun x hx => hasC x (List.mem_cons_of_mem _ hx)
    have hverA' : ∀ i, 1 ≤ i → i ≤ as.length →
        px.lstatOk (SL ++ joinB ((ds ++ [a]) ++ as.take i)) = true := by
      intro i h1 h2
      have := hverA (i + 1) (by omega) (by simp; omega)
      rw [List.take_succ_cons] at this
      rw [show (ds ++ [a]) ++ as.take i = ds ++ a :: as.take i from by simp]
      exact this
    have hmiss' : px.lstatOk (SL ++ joinB ((ds ++ [a]) ++ as ++ [b])) = false := by
      rw [show (ds ++ [a]) ++ as ++ [b] = ds ++ (a :: as) ++ [b] from by simp]
      exact hmiss
    have hdir' : px.opendirD (parentSL SL ((ds ++ [a]) ++ as)) = some es := by
      rw [show (ds ++ [a]) ++ as = ds ++ a :: as from by simp]
      exact hdir
    have hverC' : ∀ i, 1 ≤ i → i ≤ cs.length →
        px.lstatOk (SL ++ joinB ((ds ++ [a]) ++ as ++ [name] ++ cs.take i)) = true := by
      intro i h1 h2
      rw [show (ds ++ [a]) ++ as ++ [name] ++ cs.take i =
          ds ++ (a :: as) ++ [name] ++ cs.take i from by simp]
      exact hverC i h1 h2
    have hrec := ih f SL (ds ++ [a]) b cs es name scans live hSL hds' hasC' hb hcs hnm
      hverA' hmiss' hdir' hfind hverC' (by simp at hfuel ⊢; omega)
    rw [hrec]
    rw [show (ds ++ [a]) ++ as ++ name :: cs = ds ++ (a :: as) ++ name :: cs from by simp]

/-- A name obtained by scanning the parent directory built for `(SL,
ds)` passes `lstat` when appended to the corrected prefix, for a
consistent oracle. -/
theorem consistent_child {px : Posix} (hco : Consistent px) {SL : Bytes} {ds : List Bytes}
    {es : List Bytes} {name : Bytes} (hSL : ∀ c ∈ SL, c = '/')
    (hop : px.opendirD (parentSL SL ds) = some es) (hmem : name ∈ es) :
    px.lstatOk (SL ++ joinB (ds ++ [name])) = true := by
  have h := hco _ _ _ hop hmem
  by_cases hds0 : ds = []
  · subst hds0
    by_cases hSL0 : SL = []
    · subst hSL0
      have hpd : parentSL ([] : Bytes) ([] : List Bytes) = [DOTC] := by simp [parentSL]
      rw [hpd, if_pos rfl] at h
      simpa [joinB] using h
    · have hpd : parentSL SL ([] : List Bytes) = SL := by simp [parentSL, hSL0]
      have hne := @parentSL_ne_dot SL ([] : List Bytes) hSL (Or.inl hSL0)
      rw [if_neg hne, hpd] at h
      simpa [joinB] using h
  · have hne := parentSL_ne_dot hSL (Or.inr hds0)
    rw [if_neg hne] at h
    have hpd : parentSL SL ds = SL ++ joinB ds ++ ['/'] := by simp [parentSL, hds0]
    rw [hpd] at h
    rw [joinB_append_single name hds0]
    rw [show SL ++ (joinB ds ++ '/' :: name) = SL ++ joinB ds ++ ['/'] ++ name from by simp]
    exact h

/-- Shape of a successful run that is already at the end of the
string (the remainder holds no token). -/
theorem loop_shape_end (px : Posix) (fuel : Nat) (SL : Bytes) (ds : List Bytes)
    (scans live : Nat) (F : Bytes) (sc lv : Nat)
    (hSL : ∀ c ∈ SL, c = '/') (hds : ∀ d ∈ ds, cleanTok d) (hver : Ver px SL ds)
    (hrun : fixLoopF px fuel (stateBuf SL ds ([] ++ [NUL])) (ptrOf SL ds) scans live =
      ⟨some F, sc, lv⟩) :
    ∃ rs, (∀ d ∈ rs, cleanTok d) ∧ Ver px SL rs ∧ cstr F = SL ++ joinB rs := by
  cases fuel with
  | zero =>
    rw [show fixLoopF px 0 (stateBuf SL ds ([] ++ [NUL])) (ptrOf SL ds) scans live =
      ⟨none, scans, live⟩ from rfl] at hrun
    rw [CaseRes.mk.injEq] at hrun
    obtain ⟨h1, _, _⟩ := hrun
    cases h1
  | succ f =>
    by_cases hds0 : ds = []
    · subst hds0
      have hend := loop_end px f (Q := ([] : Bytes)) (V := SL) (r := [NUL]) (p := 0)
        rfl hSL (Or.inl (by simp)) scans live
      have hbufe : stateBuf SL [] ([] ++ [NUL]) = [] ++ SL ++ [NUL] := by
        simp [stateBuf, pfxPart]
      have hptre : ptrOf SL [] = 0 := by simp [ptrOf]
      rw [hbufe, hptre, hend] at hrun
      rw [CaseRes.mk.injEq] at hrun
      obtain ⟨h1, _, _⟩ := hrun
      rw [Option.some.injEq] at h1
      subst h1
      refine ⟨[], by simp, ?_, ?_⟩
      · intro i h1' h2'
        simp at h2'
        omega
      · rw [show ([] : Bytes) ++ SL ++ [NUL] = SL ++ NUL :: [] from by simp]
        rw [cstr_append_nul _ (fun hm => NUL_ne_slash (hSL _ hm))]
        simp [joinB]
    · have hQlen : (SL ++ (joinB ds ++ [NUL])).length = ptrOf SL ds := by
        simp [ptrOf, hds0]
        omega
      have hend := loop_end px f (Q := SL ++ (joinB ds ++ [NUL])) (V := ([] : Bytes))
        (r := [NUL]) hQlen (by simp) (Or.inl (by simp)) scans live
      have hbufe : stateBuf SL ds ([] ++ [NUL]) =
          SL ++ (joinB ds ++ [NUL]) ++ [] ++ [NUL] := by
        simp [stateBuf, pfxPart, hds0]
      rw [hbufe, hend] at hrun
      rw [CaseRes.mk.injEq] at hrun
      obtain ⟨h1, _, _⟩ := hrun
      rw [Option.some.injEq] at h1
      subst h1
      refine ⟨ds, hds, hver, ?_⟩
      rw [show SL ++ (joinB ds ++ [NUL]) ++ [] ++ [NUL] =
          (SL ++ joinB ds) ++ NUL :: [NUL] from by simp]
      refine cstr_append_nul _ ?_
      simp only [List.mem_append]
      rintro (hm | hm)
      · exact NUL_ne_slash (hSL _ hm)
      · exact nul_not_mem_joinB hds hm

/-- Shape of a successful run whose remainder is empty: the processed
tokens end at the terminating NUL. -/
theorem loop_shape_fin (px : Posix) (fuel : Nat) (SL : Bytes) (ds : List Bytes)
    (scans live : Nat) (F : Bytes) (sc lv : Nat)
    (hSL : ∀ c ∈ SL, c = '/') (hds : ∀ d ∈ ds, cleanTok d) (hds0 : ds ≠ [])
    (hver : Ver px SL ds)
    (hrun : fixLoopF px fuel (stateBuf SL ds []) (ptrOf SL ds) scans live =
      ⟨some F, sc, lv⟩) :
    ∃ rs, (∀ d ∈ rs, cleanTok d) ∧ Ver px SL rs ∧ cstr F = SL ++ joinB rs := by
  cases fuel with
  | zero =>
    rw [show fixLoopF px 0 (stateBuf SL ds []) (ptrOf SL ds) scans live =
      ⟨none, scans, live⟩ from rfl] at hrun
    rw [CaseRes.mk.injEq] at hrun
    obtain ⟨h1, _, _⟩ := hrun
    cases h1
  | succ f =>
    have hQlen : (SL ++ (joinB ds ++ [NUL])).length = ptrOf SL ds := by
      simp [ptrOf, hds0]
      omega
    have hend := loop_end px f (Q := SL ++ (joinB ds ++ [NUL])) (V := ([] : Bytes))
      (r := ([] : Bytes)) hQlen (by simp) (Or.inr rfl) scans live
    have hbufe : stateBuf SL ds [] = SL ++ (joinB ds ++ [NUL]) ++ [] ++ [] := by
      simp [stateBuf, pfxPart, hds0]
    rw [hbufe, hend] at hrun
    rw [CaseRes.mk.injEq] at hrun
    obtain ⟨h1, _, _⟩ := hrun
    rw [Option.some.injEq] at h1
    subst h1
    refine ⟨ds, hds, hver, ?_⟩
    rw [show SL ++ (joinB ds ++ [NUL]) ++ [] ++ [] =
        (SL ++ joinB ds) ++ NUL :: [] from by simp]
    refine cstr_append_nul _ ?_
    simp only [List.mem_append]
    rintro (hm | hm)
    · exact NUL_ne_slash (hSL _ hm)
    · exact nul_not_mem_joinB hds hm

/-- Shape of a successful run from any reachable state: the returned C
string is the separator run followed by clean, fully verified tokens
joined by single separators. -/
theorem loop_shape (px : Posix) (hcn : CleanNames px) (hco : Consistent px) :
    ∀ (N : Nat) (R : Bytes) (fuel : Nat) (SL : Bytes) (ds : List Bytes)
      (scans live : Nat) (F : Bytes) (sc lv : Nat),
    R.length ≤ N →
    (∀ c ∈ SL, c = '/') → (∀ d ∈ ds, cleanTok d) → NUL ∉ R →
    (R.head? = some '/' → ds ≠ []) →
    Ver px SL ds →
    ptrOf SL ds ≤ (stateBuf SL ds (R ++ [NUL])).length + 1 →
    (stateBuf SL ds (R ++ [NUL])).length + 2 ≤ 2 * fuel + ptrOf SL ds →
    fixLoopF px fuel (stateBuf SL ds (R ++ [NUL])) (ptrOf SL ds) scans live =
      ⟨some F, sc, lv⟩ →
    ∃ rs, (∀ d ∈ rs, cleanTok d) ∧ Ver px SL rs ∧ cstr F = SL ++ joinB rs := by
  intro N
  induction N with
  | zero =>
    intro R fuel SL ds scans live F sc lv hN hSL hds hnR hhead hver hp1 hp2 hrun
    have hR0 : R = [] := List.length_eq_zero.mp (by omega)
    subst hR0
    exact loop_shape_end px fuel SL ds scans live F sc lv hSL hds hver hrun
  | succ N ih =>
    intro R fuel SL ds scans live F sc lv hN hSL hds hnR hhead hver hp1 hp2 hrun
    cases hRc : R with
    | nil =>
      subst hRc
      exact loop_shape_end px fuel SL ds scans live F sc lv hSL hds hver hrun
    | cons w R1 =>
      subst hRc
      by_cases hw : w = '/'
      · subst hw
        have hds0 : ds ≠ [] := hhead rfl
        obtain ⟨f, rfl⟩ : ∃ f, fuel = f + 1 := ⟨fuel - 1, by omega⟩
        have hnR1 : NUL ∉ R1 := fun hm => hnR (List.mem_cons_of_mem _ hm)
        obtain ⟨F2, hF2, hFc2⟩ := loop_gap px f SL ds R1 scans live hSL hds hds0 hnR1
          (Ver_whole hver hds0) hp2
        rw [hF2] at hrun
        rw [CaseRes.mk.injEq] at hrun
        obtain ⟨h1, _, _⟩ := hrun
        rw [Option.some.injEq] at h1
        refine ⟨ds, hds, hver, ?_⟩
        rw [← h1, hFc2]
      · obtain ⟨f, rfl⟩ : ∃ f, fuel = f + 1 := ⟨fuel - 1, by omega⟩
        have hnW : NUL ∉ w :: R1 := hnR
        obtain ⟨T, hTdef⟩ : ∃ T, (w :: R1).takeWhile (fun c => c ≠ '/') = T := ⟨_, rfl⟩
        obtain ⟨X, hXdef⟩ : ∃ X, (w :: R1).dropWhile (fun c => c ≠ '/') = X := ⟨_, rfl⟩
        have hsplitW : T ++ X = w :: R1 := by
          rw [← hTdef, ← hXdef]
          exact List.takeWhile_append_dropWhile _ _
        have ht : cleanTok T := by
          refine ⟨?_, ?_, ?_⟩
          · rw [← hTdef, List.takeWhile_cons_of_pos (by simpa using hw)]
            simp
          · intro hm
            rw [← hTdef] at hm
            have := List.mem_takeWhile_imp hm
            simp at this
          · intro hm
            rw [← hTdef] at hm
            exact hnW (List.takeWhile_subset _ hm)
        have hT1 : 1 ≤ T.length := by
          cases hTc : T with
          | nil => exact absurd hTc ht.1
          | cons a l => simp
        have hXshape : X = [] ∨ ∃ X', X = '/' :: X' := by
          cases hXd : X with
          | nil => left; rfl
          | cons x X' =>
            right
            refine ⟨X', ?_⟩
            have hx := dropWhile_cons_head_false (p := fun c => c ≠ '/') (by rw [hXdef, hXd])
            simp at hx
            rw [hx]
        have hnX : NUL ∉ X := by
          intro hm
          rw [← hXdef] at hm
          exact hnW (List.dropWhile_subset _ hm)
        have hstep := step_main px f SL ds T X scans live hSL hds ht hXshape
        rw [show (w :: R1) ++ [NUL] = T ++ X ++ [NUL] from by rw [hsplitW]] at hrun hp1 hp2
        rw [hstep] at hrun
        have hlenTX : T.length + X.length = R1.length + 1 := by
          have := congrArg List.length hsplitW
          simp at this
          omega
        by_cases hl : px.lstatOk (SL ++ joinB (ds ++ [T])) = true
        · rw [if_pos hl] at hrun
          have hds' : ∀ d ∈ ds ++ [T], cleanTok d := by
            intro d hd
            rcases List.mem_append.mp hd with h | h
            · exact hds d h
            · simp at h
              subst h
              exact ht
          have hver' : Ver px SL (ds ++ [T]) := Ver_append_single hver hl
          rcases hXshape with hX0 | ⟨X', hX'⟩
          · subst hX0
            rw [show nextR ([] : Bytes) = [] from rfl] at hrun
            exact loop_shape_fin px f SL (ds ++ [T]) scans live F sc lv hSL hds'
              (by simp) hver' hrun
          · subst hX'
            refine ih X' f SL (ds ++ [T]) scans live F sc lv
              (by simp only [List.length_cons] at hN hlenTX; omega)
              hSL hds' (fun hm => hnX (List.mem_cons_of_mem _ hm))
              (fun _ => by simp) hver' ?_ ?_
              (by rw [show nextR ('/' :: X') = X' ++ [NUL] from rfl] at hrun; exact hrun)
            · by_cases hds0 : ds = []
              · subst hds0
                simp [stateBuf, pfxPart, ptrOf, joinB]
              · simp [stateBuf, pfxPart, ptrOf, hds0, show ds ++ [T] ≠ [] from by simp,
                  length_joinB_append_single T hds0]
            · by_cases hds0 : ds = []
              · subst hds0
                simp [stateBuf, pfxPart, ptrOf, joinB] at hp2 ⊢
                omega
              · simp [stateBuf, pfxPart, ptrOf, hds0, show ds ++ [T] ≠ [] from by simp,
                  length_joinB_append_single T hds0] at hp2 ⊢
                omega
        · rw [if_neg hl] at hrun
          cases hop : px.opendirD (parentSL SL ds) with
          | none =>
            rw [hop] at hrun
            simp at hrun
          | some es =>
            rw [hop] at hrun
            simp only [] at hrun
            cases hfm : findCaseMatch es T with
            | none =>
              rw [hfm] at hrun
              simp at hrun
            | some name =>
              rw [hfm] at hrun
              simp only [] at hrun
              have hnm : cleanTok name := hcn _ _ _ hop (findCaseMatch_mem hfm)
              have hlenN : name.length = T.length := caseEq_length (findCaseMatch_spec hfm).1
              have hlchild : px.lstatOk (SL ++ joinB (ds ++ [name])) = true :=
                consistent_child hco hSL hop (findCaseMatch_mem hfm)
              have hds' : ∀ d ∈ ds ++ [name], cleanTok d := by
                intro d hd
                rcases List.mem_append.mp hd with h | h
                · exact hds d h
                · simp at h
                  subst h
                  exact hnm
              have hver' : Ver px SL (ds ++ [name]) := Ver_append_single hver hlchild
              rcases hXshape with hX0 | ⟨X', hX'⟩
              · subst hX0
                rw [show nextR ([] : Bytes) = [] from rfl] at hrun
                exact loop_shape_fin px f SL (ds ++ [name]) (scans + 1) (live + 1 - 1)
                  F sc lv hSL hds' (by simp) hver' hrun
              · subst hX'
                refine ih X' f SL (ds ++ [name]) (scans + 1) (live + 1 - 1) F sc lv
                  (by simp only [List.length_cons] at hN hlenTX; omega)
                  hSL hds' (fun hm => hnX (List.mem_cons_of_mem _ hm))
                  (fun _ => by simp) hver' ?_ ?_
                  (by rw [show nextR ('/' :: X') = X' ++ [NUL] from rfl] at hrun; exact hrun)
                · by_cases hds0 : ds = []
                  · subst hds0
                    simp [stateBuf, pfxPart, ptrOf, joinB, hlenN]
                  · simp [stateBuf, pfxPart, ptrOf, hds0, show ds ++ [name] ≠ [] from by simp,
                      length_joinB_append_single name hds0, hlenN]
                · by_cases hds0 : ds = []
                  · subst hds0
                    simp [stateBuf, pfxPart, ptrOf, joinB, hlenN] at hp2 ⊢
                    omega
                  · simp [stateBuf, pfxPart, ptrOf, hds0, show ds ++ [name] ≠ [] from by simp,
                      length_joinB_append_single name hds0, hlenN] at hp2 ⊢
                    omega

/-- Allocation balance of the loop: a failing run has freed one
allocation more than it made (the working copy of its caller), while a
successful run hands the starting balance back unchanged. -/
theorem loop_live (px : Posix) : ∀ (fuel : Nat) (buf : Bytes) (ptr scans live : Nat),
    ptr ≤ buf.length + 1 → buf.length + 2 ≤ 2 * fuel + ptr →
    ((fixLoopF px fuel buf ptr scans live).res = none →
      (fixLoopF px fuel buf ptr scans live).live = live - 1) ∧
    ((fixLoopF px fuel buf ptr scans live).res ≠ none →
      (fixLoopF px fuel buf ptr scans live).live = live) := by
  intro fuel
  induction fuel with
  | zero =>
    intro buf ptr scans live hp1 hp2
    omega
  | succ fuel ih =>
    intro buf ptr scans live hp1 hp2
    rw [fixLoopF_succ]
    cases hst : strtokR buf ptr with
    | none =>
      refine ⟨fun h => ?_, fun _ => rfl⟩
      simp at h
    | some val =>
      obtain ⟨j, n, buf1, ptr'⟩ := val
      obtain ⟨hij, hn1, hjl, hjnl, hptr', hbuf1⟩ := strtokR_bounds hst
      simp only []
      have hlen2 : (if j ≠ 0 then buf1.set (j - 1) '/' else buf1).length = buf.length := by
        by_cases hj : j = 0
        · simp [hj, hbuf1]
        · simp [hj, hbuf1]
      by_cases hl : px.lstatOk (cstr (if j ≠ 0 then buf1.set (j - 1) '/' else buf1)) = true
      · rw [if_pos hl]
        exact ih _ ptr' scans live (by rw [hlen2]; omega) (by rw [hlen2]; omega)
      · rw [if_neg hl]
        cases hop : px.opendirD (if j ≠ 0 then
            cstr ((if j ≠ 0 then buf1.set (j - 1) '/' else buf1).take j) else [DOTC]) with
        | none =>
          refine ⟨fun _ => ?_, fun h => ?_⟩
          · simp only []
            omega
          · simp at h
        | some es =>
          simp only []
          cases hfm : findCaseMatch es
              (((if j ≠ 0 then buf1.set (j - 1) '/' else buf1).drop j).take n) with
          | none =>
            refine ⟨fun _ => ?_, fun h => ?_⟩
            · simp only []
              omega
            · simp at h
          | some name =>
            simp only []
            have hlenS : (setRange (if j ≠ 0 then buf1.set (j - 1) '/' else buf1) j
                (name ++ [NUL])).length = buf.length := by
              rw [length_setRange, hlen2]
            obtain ⟨ih1, ih2⟩ := ih (setRange (if j ≠ 0 then buf1.set (j - 1) '/' else buf1)
                j (name ++ [NUL])) ptr' (scans + 1) (live + 1 - 1)
              (by rw [hlenS]; omega) (by rw [hlenS]; omega)
            refine ⟨fun h => ?_, fun h => ?_⟩
            · have := ih1 h
              omega
            · have := ih2 h
              omega

/-- The record `fix_path_case` returns, written through the loop. -/
theorem fpc_run (px : Posix) (path : Bytes) :
    fix_path_case px path =
      ⟨(fixLoopF px ((cstr path ++ [NUL]).length + 1) (cstr path ++ [NUL]) 0 0 1).res.map cstr,
       (fixLoopF px ((cstr path ++ [NUL]).length + 1) (cstr path ++ [NUL]) 0 0 1).scans,
       (fixLoopF px ((cstr path ++ [NUL]).length + 1) (cstr path ++ [NUL]) 0 0 1).live⟩ := rfl

/-- The NUL byte never occurs in a C-string view. -/
theorem nul_not_mem_cstr (b : Bytes) : NUL ∉ cstr b := by
  intro hm
  have := List.mem_takeWhile_imp hm
  simp at this

/-- Split a C string into its leading separator run and the rest. -/
theorem cstr_split (path : Bytes) :
    ∃ SL C, cstr path = SL ++ C ∧ (∀ c ∈ SL, c = '/') ∧ NUL ∉ C ∧
      (∀ c, C.head? = some c → c ≠ '/') := by
  refine ⟨(cstr path).takeWhile (fun c => c = '/'), (cstr path).dropWhile (fun c => c = '/'),
    (List.takeWhile_append_dropWhile _ _).symm, ?_, ?_, ?_⟩
  · intro c hm
    have := List.mem_takeWhile_imp hm
    simpa using this
  · intro hm
    exact nul_not_mem_cstr path (List.dropWhile_subset _ hm)
  · intro c hc
    cases hC : (cstr path).dropWhile (fun c => c = '/') with
    | nil => rw [hC] at hc; simp at hc
    | cons w W =>
      rw [hC] at hc
      simp at hc
      subst hc
      have := dropWhile_cons_head_false (p := fun c => c = '/') hC
      simpa using this

/-- Shape of any success of `fix_path_case` over a clean, consistent
oracle: the returned string is the input separator run followed by
verified clean tokens. -/
theorem fpc_shape (px : Posix) (hcn : CleanNames px) (hco : Consistent px)
    {path out : Bytes} (h : (fix_path_case px path).ret = some out) :
    ∃ SL rs, (∀ c ∈ SL, c = '/') ∧ (∀ d ∈ rs, cleanTok d) ∧ Ver px SL rs ∧
      out = SL ++ joinB rs := by
  obtain ⟨SL, C, hsplit, hSL, hnC, hheadC⟩ := cstr_split path
  have hret : (fix_path_case px path).ret =
      (fixLoopF px ((cstr path ++ [NUL]).length + 1) (cstr path ++ [NUL]) 0 0 1).res.map
        cstr := rfl
  rw [hret] at h
  cases hres : (fixLoopF px ((cstr path ++ [NUL]).length + 1) (cstr path ++ [NUL]) 0 0 1).res
      with
  | none =>
    rw [hres] at h
    simp at h
  | some F =>
    rw [hres] at h
    simp only [Option.map_some'] at h
    rw [Option.some.injEq] at h
    have hfl : fixLoopF px ((cstr path ++ [NUL]).length + 1) (cstr path ++ [NUL]) 0 0 1 =
        ⟨some F,
         (fixLoopF px ((cstr path ++ [NUL]).length + 1) (cstr path ++ [NUL]) 0 0 1).scans,
         (fixLoopF px ((cstr path ++ [NUL]).length + 1) (cstr path ++ [NUL]) 0 0 1).live⟩ := by
      rw [← hres]
    have hbuf : cstr path ++ [NUL] = stateBuf SL [] (C ++ [NUL]) := by
      rw [hsplit]
      simp [stateBuf, pfxPart]
    have hptr0 : ptrOf SL ([] : List Bytes) = 0 := by simp [ptrOf]
    obtain ⟨rs, hclean, hver, hcF⟩ := loop_shape px hcn hco C.length C
      ((cstr path ++ [NUL]).length + 1) SL [] 0 1 F
      (fixLoopF px ((cstr path ++ [NUL]).length + 1) (cstr path ++ [NUL]) 0 0 1).scans
      (fixLoopF px ((cstr path ++ [NUL]).length + 1) (cstr path ++ [NUL]) 0 0 1).live
      le_rfl hSL (by simp) hnC
      (fun hh => absurd rfl (hheadC '/' hh))
      (by intro i h1 h2; simp at h2; omega)
      (by rw [← hbuf, hptr0]; omega)
      (by rw [← hbuf, hptr0]; omega)
      (by rw [← hbuf, hptr0]; exact hfl)
    exact ⟨SL, rs, hSL, hclean, hver, by rw [← h, hcF]⟩

/-- Running `fix_path_case` on a canonical verified path only verifies:
it returns the input as a fresh copy, with no directory scan. -/
theorem rerun_canonical (px : Posix) (SL : Bytes) (rs : List Bytes)
    (hSL : ∀ c ∈ SL, c = '/') (hrs : ∀ d ∈ rs, cleanTok d) (hver : Ver px SL rs) :
    fix_path_case px (SL ++ joinB rs) = ⟨some (SL ++ joinB rs), 0, 1⟩ := by
  have hnSL : NUL ∉ SL := fun hm => NUL_ne_slash (hSL _ hm)
  have hnJ : NUL ∉ joinB rs := nul_not_mem_joinB hrs
  have hcs : cstr (SL ++ joinB rs) = SL ++ joinB rs := by
    refine cstr_of_no_nul ?_
    simp only [List.mem_append]
    rintro (hm | hm)
    · exact hnSL hm
    · exact hnJ hm
  rw [fpc_run, hcs]
  by_cases hrs0 : rs = []
  · subst hrs0
    have hend := loop_end px ((SL ++ joinB ([] : List Bytes) ++ [NUL]).length)
      (Q := ([] : Bytes)) (V := SL) (r := [NUL]) (p := 0) rfl hSL (Or.inl rfl) 0 1
    have hbufe : (([] : Bytes) ++ SL ++ [NUL]) = SL ++ joinB ([] : List Bytes) ++ [NUL] := by
      simp [joinB]
    rw [hbufe] at hend
    rw [hend]
    simp only [Option.map_some']
    rw [CaseOut.mk.injEq]
    refine ⟨?_, rfl, rfl⟩
    rw [Option.some.injEq]
    rw [show SL ++ joinB ([] : List Bytes) ++ [NUL] = SL ++ joinB ([] : List Bytes) ++
      NUL :: [] from rfl]
    rw [show SL ++ joinB ([] : List Bytes) ++ NUL :: [] =
      (SL ++ joinB ([] : List Bytes)) ++ NUL :: [] from by simp]
    refine cstr_append_nul _ ?_
    simp only [List.mem_append]
    rintro (hm | hm)
    · exact hnSL hm
    · exact hnJ hm
  · have hrsne : rs ≠ [] := hrs0
    have hv := loop_verified px rs ((SL ++ joinB rs ++ [NUL]).length + 1) SL [] 0 1
      hSL (by simp) hrs (fun _ => hrsne)
      (by intro i h1 h2; simpa using hver i h1 h2)
      (by
        have h1 := length_le_length_joinB hrs
        simp only [List.length_append, List.length_cons, List.length_nil]
        omega)
    rw [if_neg hrsne] at hv
    have hbufe : stateBuf SL [] (joinB rs ++ [NUL]) = SL ++ joinB rs ++ [NUL] := by
      simp [stateBuf, pfxPart]
    have hptr0 : ptrOf SL ([] : List Bytes) = 0 := by simp [ptrOf]
    rw [hbufe, hptr0] at hv
    rw [hv]
    simp only [Option.map_some']
    rw [CaseOut.mk.injEq]
    refine ⟨?_, rfl, rfl⟩
    rw [Option.some.injEq]
    rw [show SL ++ joinB (([] : List Bytes) ++ rs) ++ [NUL] =
      (SL ++ joinB rs) ++ NUL :: [] from by simp]
    refine cstr_append_nul _ ?_
    simp only [List.mem_append]
    rintro (hm | hm)
    · exact hnSL hm
    · exact hnJ hm

/-- A top-level run with exactly one correction: the verified prefix
and suffix pass through, the miscased token is replaced by the first
case-insensitive match of its parent scan, and exactly one directory is
opened. -/
theorem one_fix_top (px : Posix) (SL : Bytes) (as : List Bytes) (b : Bytes)
    (cs es : List Bytes) (name : Bytes)
    (hSL : ∀ c ∈ SL, c = '/') (has : ∀ a ∈ as, cleanTok a) (hb : cleanTok b)
    (hcs : ∀ c ∈ cs, cleanTok c) (hnm : cleanTok name)
    (hverA : ∀ i, 1 ≤ i → i ≤ as.length → px.lstatOk (SL ++ joinB (as.take i)) = true)
    (hmiss : px.lstatOk (SL ++ joinB (as ++ [b])) = false)
    (hdir : px.opendirD (parentSL SL as) = some es)
    (hfind : findCaseMatch es b = some name)
    (hverC : ∀ i, 1 ≤ i → i ≤ cs.length →
      px.lstatOk (SL ++ joinB (as ++ [name] ++ cs.take i)) = true) :
    fix_path_case px (SL ++ joinB (as ++ b :: cs)) =
      ⟨some (SL ++ joinB (as ++ name :: cs)), 1, 1⟩ := by
  have hall : ∀ d ∈ as ++ b :: cs, cleanTok d := by
    intro d hd
    rcases List.mem_append.mp hd with h | h
    · exact has d h
    · rcases List.mem_cons.mp h with h | h
      · subst h; exact hb
      · exact hcs d h
  have hnSL : NUL ∉ SL := fun hm => NUL_ne_slash (hSL _ hm)
  have hnJ : NUL ∉ joinB (as ++ b :: cs) := nul_not_mem_joinB hall
  have hcs0 : cstr (SL ++ joinB (as ++ b :: cs)) = SL ++ joinB (as ++ b :: cs) := by
    refine cstr_of_no_nul ?_
    simp only [List.mem_append]
    rintro (hm | hm)
    · exact hnSL hm
    · exact hnJ hm
  rw [fpc_run, hcs0]
  have hone := loop_one_fix px as ((SL ++ joinB (as ++ b :: cs) ++ [NUL]).length + 1)
    SL [] b cs es name 0 1 hSL (by simp) has hb hcs hnm
    (by intro i h1 h2; simpa using hverA i h1 h2)
    (by simpa using hmiss)
    (by simpa using hdir)
    hfind
    (by intro i h1 h2; simpa using hverC i h1 h2)
    (by
      have h1 := length_le_length_joinB hall
      simp only [List.length_append, List.length_cons, List.length_nil]
      simp only [List.length_append, List.length_cons] at h1
      omega)
  have hbufe : stateBuf SL [] (joinB (as ++ b :: cs) ++ [NUL]) =
      SL ++ joinB (as ++ b :: cs) ++ [NUL] := by
    simp [stateBuf, pfxPart]
  have hptr0 : ptrOf SL ([] : List Bytes) = 0 := by simp [ptrOf]
  rw [hbufe, hptr0] at hone
  rw [hone]
  simp only [Option.map_some']
  rw [CaseOut.mk.injEq]
  refine ⟨?_, rfl, rfl⟩
  rw [Option.some.injEq]
  have hallR : ∀ d ∈ as ++ name :: cs, cleanTok d := by
    intro d hd
    rcases List.mem_append.mp hd with h | h
    · exact has d h
    · rcases List.mem_cons.mp h with h | h
      · subst h; exact hnm
      · exact hcs d h
  rw [show SL ++ joinB (([] : List Bytes) ++ as ++ name :: cs) ++ [NUL] =
    (SL ++ joinB (as ++ name :: cs)) ++ NUL :: [] from by simp]
  refine cstr_append_nul _ ?_
  simp only [List.mem_append]
  rintro (hm | hm)
  · exact hnSL hm
  · exact nul_not_mem_joinB hallR hm

/-- `findCaseMatch` returns the entry at the first matching position. -/
theorem findCaseMatch_of_first : ∀ (es : List Bytes) (tok nm : Bytes) (i : Nat),
    es[i]? = some nm → caseEq nm tok = true →
    (∀ k, k < i → ∀ e, es[k]? = some e → caseEq e tok = false) →
    findCaseMatch es tok = some nm := by
  intro es
  induction es with
  | nil =>
    intro tok nm i h hm hf
    simp at h
  | cons e es ih =>
    intro tok nm i hi hm hfirst
    cases i with
    | zero =>
      simp at hi
      subst hi
      simp [findCaseMatch, hm]
    | succ i =>
      have he : caseEq e tok = false := hfirst 0 (by omega) e (by simp)
      simp only [findCaseMatch, he, Bool.false_eq_true, if_false]
      exact ih tok nm i (by simpa using hi) hm
        (fun k hk e2 he2 => hfirst (k + 1) (by omega) e2 (by simpa using he2))

/-- A path whose first token verifies and is followed by a doubled
separator: the loop truncates at the NUL left behind by `strtok_r` and
returns just the first token, with no directory scan. -/
theorem gap_top (px : Posix) (t u : Bytes) (ht : cleanTok t) (hu : NUL ∉ u)
    (hl : px.lstatOk t = true) :
    fix_path_case px (t ++ '/' :: '/' :: u) = ⟨some t, 0, 1⟩ := by
  have hnp : NUL ∉ t ++ '/' :: '/' :: u := by
    simp only [List.mem_append, List.mem_cons]
    rintro (hm | hm | hm | hm)
    · exact ht.2.2 hm
    · exact NUL_ne_slash hm
    · exact NUL_ne_slash hm
    · exact hu hm
  have hcs : cstr (t ++ '/' :: '/' :: u) = t ++ '/' :: '/' :: u := cstr_of_no_nul hnp
  rw [fpc_run, hcs]
  have hstep := step_main px (((t ++ '/' :: '/' :: u) ++ [NUL]).length) [] [] t
    ('/' :: '/' :: u) 0 1 (by simp) (by simp) ht (Or.inr ⟨'/' :: u, rfl⟩)
  have hbufE : stateBuf ([] : Bytes) ([] : List Bytes) (t ++ ('/' :: '/' :: u) ++ [NUL]) =
      (t ++ '/' :: '/' :: u) ++ [NUL] := by
    simp [stateBuf, pfxPart]
  have hptrE : ptrOf ([] : Bytes) ([] : List Bytes) = 0 := by simp [ptrOf]
  rw [hbufE, hptrE] at hstep
  rw [hstep]
  have hcond : (([] : Bytes) ++ joinB (([] : List Bytes) ++ [t])) = t := by simp [joinB]
  rw [hcond, if_pos hl]
  rw [show nextR ('/' :: '/' :: u) = '/' :: u ++ [NUL] from rfl]
  obtain ⟨f3, hf3⟩ : ∃ f3, ((t ++ '/' :: '/' :: u) ++ [NUL]).length = f3 + 1 :=
    ⟨(t ++ '/' :: '/' :: u).length, by simp; omega⟩
  rw [hf3]
  have hds1 : ∀ d ∈ (([] : List Bytes) ++ [t]), cleanTok d := by
    intro d hd
    simp at hd
    subst hd
    exact ht
  obtain ⟨F, hF, hFc⟩ := loop_gap px f3 [] ([] ++ [t]) u 0 1 (by simp) hds1 (by simp) hu
    (by simpa [joinB] using hl)
    (by
      simp only [List.length_append, List.length_cons, List.length_nil] at hf3
      simp [stateBuf, pfxPart, ptrOf, joinB]
      omega)
  rw [hF]
  simp only [Option.map_some']
  rw [CaseOut.mk.injEq]
  refine ⟨?_, rfl, rfl⟩
  rw [Option.some.injEq, hFc]
  simp [joinB]

end Helpers

/-- A concrete directory tree: a file, or a directory listing its
children in on-disk order. -/
inductive Entry where
  | file : Entry
  | dir : List (Bytes × Entry) → Entry

/-- Split a byte string at every separator byte (an empty chunk for
every empty position, as the kernel path walk sees it). -/
def splitSlash : Bytes → List Bytes
  | [] => [[]]
  | c :: cs =>
    match splitSlash cs with
    | r :: rs => if c = '/' then [] :: r :: rs else (c :: r) :: rs
    | [] => [[]]

/-- How the kernel resolves a path string against the tree: split on the
separator and ignore empty and dot components. -/
def osComponents (b : Bytes) : List Bytes :=
  (splitSlash b).filter (fun t => ¬(t = [] ∨ t = [DOTC]))

/-- Look a name up in a directory listing. -/
def lookupEntry : List (Bytes × Entry) → Bytes → Option Entry
  | [], _ => none
  | (n, e) :: es, c => if n = c then some e else lookupEntry es c

/-- Walk the component list down the tree. -/
def resolveFS : List Bytes → Entry → Option Entry
  | [], e => some e
  | _ :: _, Entry.file => none
  | c :: cs, Entry.dir es =>
    match lookupEntry es c with
    | some e => resolveFS cs e
    | none => none

/-- The `Posix` oracle a concrete tree presents: `lstat` succeeds on the
paths that resolve, `opendir` enumerates the children of a directory in
their stored order. -/
def entryPosix (root : Entry) : Posix where
  lstatOk b := (resolveFS (osComponents b) root).isSome
  opendirD b :=
    match resolveFS (osComponents b) root with
    | some (Entry.dir es) => some (es.map Prod.fst)
    | _ => none

/-- The tree holding a directory `a` with a file `b` inside. -/
def fsC2 : Entry := Entry.dir [(['a'], Entry.dir [(['b'], Entry.file)])]

/-- The errno of a missing file. -/
def ENOENT : Nat := 2

/-- The flag value `fuzzyfs_read` opens with. -/
def O_RDONLY : Nat := 0

/-- The errno of a bad file descriptor. -/
def EBADF : Nat := 9

/-- Errno-level oracle for the dispatcher calls.  `lstatE`/`openE` give
`none` on success and the errno on failure; `opendirE` gives the
enumeration or the errno; `preadE` gives, per path, the byte count read
or the errno (the world is a static snapshot, so what a descriptor
reads is a function of the path it was opened on). -/
structure World where
  lstatE : Bytes → Option Nat
  opendirE : Bytes → Except Nat (List Bytes)
  openE : Bytes → Nat → Option Nat
  preadE : Bytes → Nat → Nat → Except Nat Nat

/-- The `Posix` view of a `World`, as `fix_path_case` observes it. -/
def posixOf (w : World) : Posix where
  lstatOk p := (w.lstatE p).isNone
  opendirD p := (w.opendirE p).toOption

/-- What a dispatcher call comes to: a returned value (0 or -errno), or
an aborted `assert`. -/
inductive CallRes where
  | ret : Int → CallRes
  | assertFail : CallRes
deriving DecidableEq

/-- Result of `fuzzyfs_readdir`: the names handed to the filler on
success, a returned error, or an aborted `assert`. -/
inductive ReaddirRes where
  | filled : List Bytes → ReaddirRes
  | errret : Int → ReaddirRes
  | assertFail : ReaddirRes
deriving DecidableEq

/-- The kernel descriptor table: open descriptors with the path each
was opened on. -/
abbrev FdTable := List (Nat × Bytes)

/-- A descriptor number not yet in the table. -/
def freshFd (st : FdTable) : Nat := (st.map Prod.fst).foldr (fun a b => max a b) 0 + 1

/-- `open(p, flags)`: on success a fresh descriptor is added to the
table. -/
def sysOpen (w : World) (st : FdTable) (p : Bytes) (flags : Nat) :
    Except Nat Nat × FdTable :=
  match w.openE p flags with
  | some e => (Except.error e, st)
  | none => (Except.ok (freshFd st), (freshFd st, p) :: st)

/-- `close(fd)`: drop the descriptor from the table. -/
def sysClose (st : FdTable) (fd : Nat) : FdTable :=
  st.filter (fun en => en.1 ≠ fd)

/-- `pread(fd, buf, size, offset)`: read through the descriptor. -/
def sysPread (w : World) (st : FdTable) (fd size offset : Nat) : Except Nat Nat :=
  match st.find? (fun en => en.1 = fd) with
  | none => Except.error EBADF
  | some en => w.preadE en.2 size offset

/-- `fuzzyfs_getattr` (fuzzyfs.c lines 181..219): lstat the fixed path,
pass non-ENOENT errors through, on ENOENT resolve the case and lstat
again; the retry result only feeds `assert(res != -1)` before
`return 0`. -/
def fuzzyfs_getattr (w : World) (path : Bytes) : CallRes :=
  match w.lstatE (fix_path path) with
  | none => CallRes.ret 0
  | some e =>
    if e ≠ ENOENT then CallRes.ret (-(e : Int))
    else
      match (fix_path_case (posixOf w) (fix_path path)).ret with
      | none => CallRes.ret (-(ENOENT : Int))
      | some q =>
        match w.lstatE q with
        | none => CallRes.ret 0
        | some _ => CallRes.assertFail

/-- `fuzzyfs_readdir` (fuzzyfs.c lines 222..281): open the directory,
pass non-ENOENT errors through, on ENOENT resolve the case and open
again; the retried stream only feeds `assert(dp != NULL)`, then the
entries are filled and 0 returned. -/
def fuzzyfs_readdir (w : World) (path : Bytes) : ReaddirRes :=
  match w.opendirE (fix_path path) with
  | Except.ok es => ReaddirRes.filled es
  | Except.error e =>
    if e ≠ ENOENT then ReaddirRes.errret (-(e : Int))
    else
      match (fix_path_case (posixOf w) (fix_path path)).ret with
      | none => ReaddirRes.errret (-(ENOENT : Int))
      | some q =>
        match w.opendirE q with
        | Except.ok es => ReaddirRes.filled es
        | Except.error _ => ReaddirRes.assertFail

/-- `fuzzyfs_open` (fuzzyfs.c lines 284..324): open with the caller
flags, close at once and return 0 on success; pass non-ENOENT errors
through; on ENOENT resolve the case, open again, close, and let
`assert(res != -1)` abort if the retry failed. -/
def fuzzyfs_open (w : World) (st : FdTable) (path : Bytes) (flags : Nat) :
    CallRes × FdTable :=
  match sysOpen w st (fix_path path) flags with
  | (Except.ok fd, st1) => (CallRes.ret 0, sysClose st1 fd)
  | (Except.error e, st1) =>
    if e ≠ ENOENT then (CallRes.ret (-(e : Int)), st1)
    else
      match (fix_path_case (posixOf w) (fix_path path)).ret with
      | none => (CallRes.ret (-(ENOENT : Int)), st1)
      | some q =>
        match sysOpen w st1 q flags with
        | (Except.ok fd, st2) => (CallRes.ret 0, sysClose st2 fd)
        | (Except.error _, st2) => (CallRes.assertFail, st2)

/-- `fuzzyfs_read` (fuzzyfs.c lines 327..377): ignore the FUSE file
info, open the path read-only (retrying once through the case resolver
under `assert`), pread at the offset, close, and return the count or
the pread errno. -/
def fuzzyfs_read (w : World) (st : FdTable) (path : Bytes) (size offset : Nat)
    (fi : Nat) : CallRes × FdTable :=
  match sysOpen w st (fix_path path) O_RDONLY with
  | (Except.ok fd, st1) =>
    (match sysPread w st1 fd size offset with
     | Except.ok n => (CallRes.ret n, sysClose st1 fd)
     | Except.error e2 => (CallRes.ret (-(e2 : Int)), sysClose st1 fd))
  | (Except.error e, st1) =>
    if e ≠ ENOENT then (CallRes.ret (-(e : Int)), st1)
    else
      match (fix_path_case (posixOf w) (fix_path path)).ret with
      | none => (CallRes.ret (-(ENOENT : Int)), st1)
      | some q =>
        match sysOpen w st1 q O_RDONLY with
        | (Except.error _, st2) => (CallRes.assertFail, st2)
        | (Except.ok fd, st2) =>
          match sysPread w st2 fd size offset with
          | Except.ok n => (CallRes.ret n, sysClose st2 fd)
          | Except.error e2 => (CallRes.ret (-(e2 : Int)), sysClose st2 fd)

section DispatcherLemmas

/-- Opening through a failing `open` leaves the table unchanged. -/
theorem sysOpen_some {w : World} {p : Bytes} {flags e : Nat} (st : FdTable)
    (h : w.openE p flags = some e) :
    sysOpen w st p flags = (Except.error e, st) := by
  unfold sysOpen
  rw [h]

/-- Opening through a succeeding `open` adds a fresh descriptor. -/
theorem sysOpen_none {w : World} {p : Bytes} {flags : Nat} (st : FdTable)
    (h : w.openE p flags = none) :
    sysOpen w st p flags = (Except.ok (freshFd st), (freshFd st, p) :: st) := by
  unfold sysOpen
  rw [h]

/-- Every element bounds the maximum fold from below. -/
theorem le_foldr_max : ∀ (l : List Nat) (x : Nat), x ∈ l →
    x ≤ l.foldr (fun a b => max a b) 0 := by
  intro l
  induction l with
  | nil =>
    intro x h
    simp at h
  | cons a l ih =>
    intro x h
    rcases List.mem_cons.mp h with h | h
    · subst h
      simp only [List.foldr_cons]
      exact le_max_left _ _
    · simp only [List.foldr_cons]
      exact le_trans (ih x h) (le_max_right _ _)

/-- Closing the freshly opened descriptor restores the table. -/
theorem sysClose_fresh (st : FdTable) (p : Bytes) :
    sysClose ((freshFd st, p) :: st) (freshFd st) = st := by
  have h1 : ∀ en ∈ st, en.1 < freshFd st := by
    intro en hen
    have := le_foldr_max (st.map Prod.fst) en.1 (List.mem_map_of_mem _ hen)
    unfold freshFd
    omega
  unfold sysClose
  rw [List.filter_cons]
  rw [if_neg (by simp)]
  refine List.filter_eq_self.mpr ?_
  intro en hen
  have h2 := h1 en hen
  simp only [ne_eq, decide_eq_true_eq]
  omega

/-- Reading the freshly opened descriptor reads the path it was opened
on. -/
theorem sysPread_fresh (w : World) (st : FdTable) (p : Bytes) (size offset : Nat) :
    sysPread w ((freshFd st, p) :: st) (freshFd st) size offset =
      w.preadE p size offset := by
  unfold sysPread
  simp [List.find?]

end DispatcherLemmas

/-- Oracle with a single correct path `a` and no readable directory. -/
def pxV : Posix where
  lstatOk p := decide (p = ['a'])
  opendirD _ := none

/-- Oracle whose current directory enumerates `B` before `b`, with only
`B` passing lstat. -/
def pxC1 : Posix where
  lstatOk p := decide (p = ['B'])
  opendirD p := if p = [DOTC] then some [['B'], ['b']] else none

/-- Oracle for a tree `a/B/c` with the middle component stored
uppercase. -/
def pxC5 : Posix where
  lstatOk p := decide (p = ['a'] ∨ p = ['a', '/', 'B'] ∨ p = ['a', '/', 'B', '/', 'c'])
  opendirD p := if p = ['a', '/'] then some [['B']] else none

/-- World in which `a` is reported missing, the scan corrects it to `A`,
and the retried lstat fails with EACCES (13). -/
def wC4 : World where
  lstatE p := if p = ['A'] then some 13 else some ENOENT
  opendirE p := if p = [DOTC] then Except.ok [['A']] else Except.error ENOENT
  openE _ _ := some ENOENT
  preadE _ _ _ := Except.error ENOENT

/-- World in which `a` is reported missing, the scan corrects it to `A`,
and every retried call on `A` succeeds. -/
def wOK : World where
  lstatE p := if p = ['A'] then none else some ENOENT
  opendirE p := if p = [DOTC] then Except.ok [['A']] else Except.error ENOENT
  openE p _ := if p = ['A'] then none else some ENOENT
  preadE _ _ _ := Except.ok 0

/-- Claim C1: when a component fails the case-sensitive existence check,
the resolver scans the parent enumeration in on-disk order and copies in
the first entry that matches the component case-insensitively: if
position i of the enumeration holds a match and every earlier position
holds none, the entry at i is the one substituted, so among several
entries differing only by case whichever enumerates first is selected. -/
theorem claim_C1 (px : Posix) (SL : Bytes) (as : List Bytes) (b : Bytes)
    (cs es : List Bytes) (name : Bytes) (i : Nat)
    (hSL : ∀ c ∈ SL, c = '/') (has : ∀ a ∈ as, cleanTok a) (hb : cleanTok b)
    (hcs : ∀ c ∈ cs, cleanTok c) (hnm : cleanTok name)
    (hverA : ∀ k, 1 ≤ k → k ≤ as.length → px.lstatOk (SL ++ joinB (as.take k)) = true)
    (hmiss : px.lstatOk (SL ++ joinB (as ++ [b])) = false)
    (hdir : px.opendirD (parentSL SL as) = some es)
    (hi : es[i]? = some name) (hmatch : caseEq name b = true)
    (hfirst : ∀ k, k < i → ∀ e, es[k]? = some e → caseEq e b = false)
    (hverC : ∀ k, 1 ≤ k → k ≤ cs.length →
      px.lstatOk (SL ++ joinB (as ++ [name] ++ cs.take k)) = true) :
    fix_path_case px (SL ++ joinB (as ++ b :: cs)) =
      ⟨some (SL ++ joinB (as ++ name :: cs)), 1, 1⟩ :=
  one_fix_top px SL as b cs es name hSL has hb hcs hnm hverA hmiss hdir
    (findCaseMatch_of_first es b name i hi hmatch hfirst) hverC

/-- Witness for claim C1: the current directory enumerates `B` before
`b`; resolving the miscased token `b` picks `B`, the earlier one. -/
theorem claim_C1_witness :
    caseEq ['B'] ['b'] = true ∧
      fix_path_case pxC1 ['b'] = ⟨some ['B'], 1, 1⟩ := by
  refine ⟨by decide, ?_⟩
  exact claim_C1 pxC1 [] [] ['b'] [] [['B'], ['b']] ['B'] 0
    (by simp) (by simp) (by decide) (by simp) (by decide)
    (fun k h1 h2 => absurd (le_trans h1 h2) (by decide))
    (by decide) (by decide) (by decide) (by decide)
    (fun k hk => absurd hk (Nat.not_lt_zero k))
    (fun k h1 h2 => absurd (le_trans h1 h2) (by decide))

/-- Claim C2 (corrected): on a canonical path, a leading separator run
followed by clean components joined by single separators, whose every
prefix passes lstat, fix_path_case returns a fresh byte-equal copy with
zero directory scans.  The byte-equality clause of the original claim
fails on paths with empty components, see the counterexample. -/
theorem claim_C2 (px : Posix) (SL : Bytes) (ts : List Bytes)
    (hSL : ∀ c ∈ SL, c = '/') (hts : ∀ d ∈ ts, cleanTok d) (hver : Ver px SL ts) :
    fix_path_case px (SL ++ joinB ts) = ⟨some (SL ++ joinB ts), 0, 1⟩ :=
  rerun_canonical px SL ts hSL hts hver

/-- Counterexample to claim C2 as stated: on the tree `a/b`, every
prefix of the path `a//b` passes lstat (the kernel ignores the empty
component), yet fix_path_case returns `a`, not a byte-equal copy. -/
theorem claim_C2_cex :
    (entryPosix fsC2).lstatOk ['a'] = true ∧
    (entryPosix fsC2).lstatOk ['a', '/'] = true ∧
    (entryPosix fsC2).lstatOk ['a', '/', '/'] = true ∧
    (entryPosix fsC2).lstatOk ['a', '/', '/', 'b'] = true ∧
    (fix_path_case (entryPosix fsC2) ['a', '/', '/', 'b']).ret = some ['a'] ∧
    (fix_path_case (entryPosix fsC2) ['a', '/', '/', 'b']).ret ≠
      some ['a', '/', '/', 'b'] := by
  decide

/-- Witness for claim C2: the fully correct path `a/b` of the tree
`a/b` is returned unchanged with no scan. -/
theorem claim_C2_witness :
    cleanTok ['a'] ∧
      fix_path_case (entryPosix fsC2) ['a', '/', 'b'] =
        ⟨some ['a', '/', 'b'], 0, 1⟩ := by
  refine ⟨by decide, ?_⟩
  exact claim_C2 (entryPosix fsC2) [] [['a'], ['b']] (by simp) (by decide)
    (by
      intro i h1 h2
      simp at h2
      have hi : i = 1 ∨ i = 2 := by omega
      rcases hi with hi | hi <;> subst hi <;> decide)

/-- Claim C3: fix_path_case is all-or-nothing in its allocations: when
it returns NULL every allocation made during the call has been freed,
and on success exactly the returned working copy is outstanding. -/
theorem claim_C3 (px : Posix) (path : Bytes) :
    ((fix_path_case px path).ret = none → (fix_path_case px path).live = 0) ∧
    ((fix_path_case px path).ret ≠ none → (fix_path_case px path).live = 1) := by
  have hret_eq : (fix_path_case px path).ret =
      (fixLoopF px ((cstr path ++ [NUL]).length + 1) (cstr path ++ [NUL]) 0 0 1).res.map
        cstr := rfl
  have hlive_eq : (fix_path_case px path).live =
      (fixLoopF px ((cstr path ++ [NUL]).length + 1) (cstr path ++ [NUL]) 0 0 1).live := rfl
  obtain ⟨h1, h2⟩ := loop_live px ((cstr path ++ [NUL]).length + 1) (cstr path ++ [NUL])
    0 0 1 (by omega) (by omega)
  cases hres : (fixLoopF px ((cstr path ++ [NUL]).length + 1) (cstr path ++ [NUL]) 0 0 1).res
      with
  | none =>
    refine ⟨fun _ => ?_, fun hc => absurd (by rw [hret_eq, hres]; rfl) hc⟩
    rw [hlive_eq, h1 hres]
  | some F =>
    refine ⟨fun hc => ?_, fun _ => ?_⟩
    · rw [hret_eq, hres] at hc
      simp at hc
    · rw [hlive_eq, h2 (by rw [hres]; simp)]

/-- Claim C4 (corrected): after a first attempt fails with ENOENT and
case resolution succeeds, each dispatcher retries once with the
corrected path, but the retry result is not surfaced verbatim: a
successful retry yields 0 (the filled entries for readdir, the pread
result for read), and a failing retry hits `assert` and aborts instead
of returning its error. -/
theorem claim_C4 (w : World) (st : FdTable) (path q : Bytes)
    (flags size offset fi : Nat)
    (hfix : (fix_path_case (posixOf w) (fix_path path)).ret = some q) :
    (w.lstatE (fix_path path) = some ENOENT →
      fuzzyfs_getattr w path =
        match w.lstatE q with
        | none => CallRes.ret 0
        | some _ => CallRes.assertFail) ∧
    (w.opendirE (fix_path path) = Except.error ENOENT →
      fuzzyfs_readdir w path =
        match w.opendirE q with
        | Except.ok es => ReaddirRes.filled es
        | Except.error _ => ReaddirRes.assertFail) ∧
    (w.openE (fix_path path) flags = some ENOENT →
      (fuzzyfs_open w st path flags).1 =
        match w.openE q flags with
        | none => CallRes.ret 0
        | some _ => CallRes.assertFail) ∧
    (w.openE (fix_path path) O_RDONLY = some ENOENT →
      (fuzzyfs_read w st path size offset fi).1 =
        match w.openE q O_RDONLY with
        | some _ => CallRes.assertFail
        | none =>
          match w.preadE q size offset with
          | Except.ok n => CallRes.ret (n : Int)
          | Except.error e2 => CallRes.ret (-(e2 : Int))) := by
  refine ⟨?_, ?_, ?_, ?_⟩
  · intro h1
    unfold fuzzyfs_getattr
    rw [h1]
    simp only []
    rw [if_neg (by simp)]
    rw [hfix]
  · intro h1
    unfold fuzzyfs_readdir
    rw [h1]
    simp only []
    rw [if_neg (by simp)]
    rw [hfix]
  · intro h1
    unfold fuzzyfs_open
    rw [sysOpen_some st h1]
    simp only []
    rw [if_neg (by simp)]
    rw [hfix]
    simp only []
    cases h2 : w.openE q flags with
    | none =>
      rw [sysOpen_none st h2]
    | some e2 =>
      rw [sysOpen_some st h2]
  · intro h1
    unfold fuzzyfs_read
    rw [sysOpen_some st h1]
    simp only []
    rw [if_neg (by simp)]
    rw [hfix]
    simp only []
    cases h2 : w.openE q O_RDONLY with
    | none =>
      rw [sysOpen_none st h2]
      simp only []
      rw [sysPread_fresh]
      cases h3 : w.preadE q size offset with
      | ok n => rfl
      | error e3 => rfl
    | some e2 =>
      rw [sysOpen_some st h2]

/-- Counterexample to claim C4 as stated: in the world `wC4` the first
lstat fails with ENOENT, resolution corrects `a` to `A`, and the retried
lstat fails with EACCES (13); the call aborts in `assert` instead of
surfacing -13. -/
theorem claim_C4_cex :
    fuzzyfs_getattr wC4 ['/', 'a'] = CallRes.assertFail ∧
    CallRes.assertFail ≠ CallRes.ret (-13) := by
  decide

/-- Witness for claim C4: in the world `wOK` the retried lstat on the
corrected path succeeds and getattr returns 0. -/
theorem claim_C4_witness :
    wOK.lstatE (fix_path ['/', 'a']) = some ENOENT ∧
      fuzzyfs_getattr wOK ['/', 'a'] = CallRes.ret 0 := by
  refine ⟨by decide, ?_⟩
  have h := (claim_C4 wOK [] ['/', 'a'] ['A'] 0 0 0 0 (by decide)).1 (by decide)
  rw [h]
  decide

/-- Claim C5: on a path with exactly one miscased component, every
other component existing case-exactly, fix_path_case rewrites only that
component: the returned path keeps the prefix components `as` and the
suffix components `cs` byte-identical, replacing only `b` by the
matched name. -/
theorem claim_C5 (px : Posix) (SL : Bytes) (as : List Bytes) (b : Bytes)
    (cs es : List Bytes) (name : Bytes)
    (hSL : ∀ c ∈ SL, c = '/') (has : ∀ a ∈ as, cleanTok a) (hb : cleanTok b)
    (hcs : ∀ c ∈ cs, cleanTok c) (hnm : cleanTok name)
    (hverA : ∀ k, 1 ≤ k → k ≤ as.length → px.lstatOk (SL ++ joinB (as.take k)) = true)
    (hmiss : px.lstatOk (SL ++ joinB (as ++ [b])) = false)
    (hdir : px.opendirD (parentSL SL as) = some es)
    (hfind : findCaseMatch es b = some name)
    (hverC : ∀ k, 1 ≤ k → k ≤ cs.length →
      px.lstatOk (SL ++ joinB (as ++ [name] ++ cs.take k)) = true) :
    fix_path_case px (SL ++ joinB (as ++ b :: cs)) =
      ⟨some (SL ++ joinB (as ++ name :: cs)), 1, 1⟩ :=
  one_fix_top px SL as b cs es name hSL has hb hcs hnm hverA hmiss hdir hfind hverC

/-- Witness for claim C5: in the tree `a/B/c`, fixing `a/b/c` corrects
only the middle component. -/
theorem claim_C5_witness :
    cleanTok ['b'] ∧
      fix_path_case pxC5 ['a', '/', 'b', '/', 'c'] =
        ⟨some ['a', '/', 'B', '/', 'c'], 1, 1⟩ := by
  refine ⟨by decide, ?_⟩
  exact claim_C5 pxC5 [] [['a']] ['b'] [['c']] [['B']] ['B']
    (by simp) (by decide) (by decide) (by decide) (by decide)
    (by intro k h1 h2; simp at h2; have hk : k = 1 := by omega
        subst hk; decide)
    (by decide) (by decide) (by decide)
    (by intro k h1 h2; simp at h2; have hk : k = 1 := by omega
        subst hk; decide)

/-- Claim C6: fix_path_case is idempotent on its successes: over a
clean, consistent oracle, rerunning it on a returned path succeeds,
returns a byte-equal copy, and performs only verification (zero
directory scans). -/
theorem claim_C6 (px : Posix) (hcn : CleanNames px) (hco : Consistent px)
    (path out : Bytes) (h : (fix_path_case px path).ret = some out) :
    fix_path_case px out = ⟨some out, 0, 1⟩ := by
  obtain ⟨SL, rs, hSL, hclean, hver, hout⟩ := fpc_shape px hcn hco h
  rw [hout]
  exact rerun_canonical px SL rs hSL hclean hver

/-- Witness for claim C6: the oracle `pxV` opens no directory, so its
success on `a` is pure verification, and the rerun returns `a` again. -/
theorem claim_C6_witness :
    (fix_path_case pxV ['a']).ret = some ['a'] ∧
      fix_path_case pxV ['a'] = ⟨some ['a'], 0, 1⟩ := by
  refine ⟨by decide, ?_⟩
  exact claim_C6 pxV
    (fun p es n hop => Option.noConfusion hop)
    (fun p es n hop => Option.noConfusion hop)
    ['a'] ['a'] (by decide)

/-- Claim C7: a name returned by the case-insensitive scan has exactly
the byte length of the scanned token (ASCII folding is length
preserving), so the in-place copy of the name and its terminator stays
within the bytes the token and its terminator occupied: the buffer
length is unchanged and everything past the token is untouched. -/
theorem claim_C7 (es : List Bytes) (tok nm : Bytes)
    (h : findCaseMatch es tok = some nm) :
    nm.length ≤ tok.length ∧
    ∀ (buf : Bytes) (j : Nat),
      (setRange buf j (nm ++ [NUL])).length = buf.length ∧
      (setRange buf j (nm ++ [NUL])).drop (j + tok.length + 1) =
        buf.drop (j + tok.length + 1) := by
  have hlen : nm.length = tok.length := caseEq_length (findCaseMatch_spec h).1
  refine ⟨by omega, ?_⟩
  intro buf j
  refine ⟨length_setRange _ _ _, ?_⟩
  refine drop_setRange _ _ _ _ ?_
  simp only [List.length_append, List.length_cons, List.length_nil]
  omega

/-- Witness for claim C7 at the singleton enumeration `B` scanned for
the token `b`. -/
theorem claim_C7_witness :
    (['B'] : Bytes).length ≤ (['b'] : Bytes).length ∧
    ∀ (buf : Bytes) (j : Nat),
      (setRange buf j (['B'] ++ [NUL])).length = buf.length ∧
      (setRange buf j (['B'] ++ [NUL])).drop (j + (['b'] : Bytes).length + 1) =
        buf.drop (j + (['b'] : Bytes).length + 1) :=
  claim_C7 [['B']] ['b'] ['B'] (by decide)

/-- Claim C8: on a NUL-free input starting with the separator, fix_path
returns the DOT token when the input is exactly the separator, and
otherwise the input with exactly one leading separator removed; it is a
total function with no failure case. -/
theorem claim_C8 (p : Bytes) (hh : p.head? = some '/') (hn : NUL ∉ p) :
    (p = ['/'] → fix_path p = [DOTC]) ∧
    (p ≠ ['/'] → fix_path p = p.drop 1 ∧ '/' :: fix_path p = p) := by
  cases p with
  | nil => simp at hh
  | cons c rest =>
    simp only [List.head?_cons, Option.some.injEq] at hh
    subst hh
    cases rest with
    | nil =>
      refine ⟨fun _ => ?_, fun hne => absurd rfl hne⟩
      simp [fix_path]
    | cons d rest2 =>
      have hd : d ≠ NUL := by
        intro he
        exact hn (by rw [he]; simp)
      refine ⟨fun he => by simp at he, fun _ => ?_⟩
      refine ⟨?_, ?_⟩
      · simp [fix_path, hd]
      · simp [fix_path, hd]

/-- Witness for claim C8 at the input holding a separator and one
letter. -/
theorem claim_C8_witness :
    fix_path ['/', 'a'] = ['a'] ∧ '/' :: fix_path ['/', 'a'] = ['/', 'a'] :=
  (claim_C8 ['/', 'a'] (by decide) (by decide)).2 (by decide)

/-- Claim C9 (corrected): an empty token (doubled separator) is not a
verification miss: `strtok_r` skips it, and because the NUL it wrote
after the previous token is never restored, lstat keeps seeing only the
verified first token, so the call succeeds and returns the path
truncated at that token, with no scan and no NotFound. -/
theorem claim_C9 (px : Posix) (t u : Bytes) (ht : cleanTok t) (hu : NUL ∉ u)
    (hl : px.lstatOk t = true) :
    fix_path_case px (t ++ '/' :: '/' :: u) = ⟨some t, 0, 1⟩ :=
  gap_top px t u ht hu hl

/-- Counterexample to claim C9 as stated: on the tree `a/b` the path
`a//b` does not produce NotFound; the call returns `a`. -/
theorem claim_C9_cex :
    (fix_path_case (entryPosix fsC2) ['a', '/', '/', 'b']).ret = some ['a'] ∧
    (fix_path_case (entryPosix fsC2) ['a', '/', '/', 'b']).ret ≠ none := by
  decide

/-- Witness for claim C9: with `a` verified, fixing `a//b` returns just
`a`. -/
theorem claim_C9_witness :
    cleanTok ['a'] ∧ fix_path_case pxV (['a'] ++ '/' :: '/' :: ['b']) = ⟨some ['a'], 0, 1⟩ := by
  refine ⟨by decide, ?_⟩
  exact claim_C9 pxV ['a'] ['b'] (by decide) (by decide) (by decide)

/-- Claim C10: fuzzyfs_read ignores the FUSE file-handle argument: any
two handle values give the same result, and the call opens by path,
reads, and closes, restoring the descriptor table it started from; the
open dispatcher likewise closes what it opened and retains nothing. -/
theorem claim_C10 (w : World) (st : FdTable) (path : Bytes) (size offset fi fi2 : Nat) :
    fuzzyfs_read w st path size offset fi = fuzzyfs_read w st path size offset fi2 ∧
    (fuzzyfs_read w st path size offset fi).2 = st ∧
    (fuzzyfs_open w st path O_RDONLY).2 = st := by
  refine ⟨rfl, ?_, ?_⟩
  · unfold fuzzyfs_read
    cases h1 : w.openE (fix_path path) O_RDONLY with
    | none =>
      rw [sysOpen_none st h1]
      simp only []
      rw [sysPread_fresh]
      cases h2 : w.preadE (fix_path path) size offset with
      | ok n => exact sysClose_fresh st _
      | error e => exact sysClose_fresh st _
    | some e =>
      rw [sysOpen_some st h1]
      simp only []
      by_cases he : e = ENOENT
      · subst he
        rw [if_neg (by simp)]
        cases hf : (fix_path_case (posixOf w) (fix_path path)).ret with
        | none => rfl
        | some q =>
          simp only []
          cases h2 : w.openE q O_RDONLY with
          | none =>
            rw [sysOpen_none st h2]
            simp only []
            rw [sysPread_fresh]
            cases h3 : w.preadE q size offset with
            | ok n => exact sysClose_fresh st _
            | error e3 => exact sysClose_fresh st _
          | some e2 =>
            rw [sysOpen_some st h2]
      · rw [if_pos he]
  · unfold fuzzyfs_open
    cases h1 : w.openE (fix_path path) O_RDONLY with
    | none =>
      rw [sysOpen_none st h1]
      exact sysClose_fresh st _
    | some e =>
      rw [sysOpen_some st h1]
      simp only []
      by_cases he : e = ENOENT
      · subst he
        rw [if_neg (by simp)]
        cases hf : (fix_path_case (posixOf w) (fix_path path)).ret with
        | none => rfl
        | some q =>
          simp only []
          cases h2 : w.openE q O_RDONLY with
          | none =>
            rw [sysOpen_none st h2]
            exact sysClose_fresh st _
          | some e2 =>
            rw [sysOpen_some st h2]
      · rw [if_pos he]

end FuzzyFS
